import Mathlib

/-!
# Verification of the hyperon-experimental distributed-query core

This file embeds, as Lean definitions, the parts of the repository that the
claims concern:

* the s-expression → wire-token translator of `rust-das/src/helpers/mod.rs`
  (`tokenize`, `Parser::parse_expression`, `needs_link_template`,
  `generate_output`, `generate_output_inner`, `translate`);
* the bus-message processing of `rust-das/src/lib.rs`
  (`DASNode::process_message`, `DASNode::execute_message`);
* the answer decoding and endpoint validation of
  `lib/src/metta/runner/stdlib/das.rs` (`query_with_das`, the variable
  extraction loop, `extract_host_and_port`, `NewDasOp::execute`);
* the conjunctive query evaluation of `lib/src/space/grounding/mod.rs`
  (`GroundingSpace::query`, `GroundingSpace::single_query`).

The atom matcher (`hyperon-atom`'s `Bindings`, unification, `narrow_vars`,
`apply_bindings_to_atom_move`) is not part of the sources at hand; where a
claim depends on it, it is modelled from the specification text, and the
definitions say so in their doc comments.
-/

/-! ## Wire translator (`rust-das/src/helpers/mod.rs`) -/

namespace Helpers

/-- Parsed s-expression tokens, mirroring `enum Token` of the translator. -/
inductive Token where
  | Symbol (s : String)
  | Variable (v : String)
  | OpenParen
  | CloseParen
deriving DecidableEq, Repr

/-- AST nodes of the translator, mirroring `enum Node`. -/
inductive Node where
  | Symbol (s : String)
  | Variable (v : String)
  | Expression (children : List Node)

/-- The `classify_token`: a token starting with `$` is a variable (sigil
stripped), everything else a symbol. -/
def classify_token (cs : List Char) : Token :=
  if cs.head? = some '$' then Token.Variable (String.mk cs.tail)
  else Token.Symbol (String.mk cs)

/-- Flush the in-progress token buffer, as the `if !current.is_empty()`
blocks of `tokenize` do. -/
def flushTok (curr : List Char) : List Token :=
  if curr.isEmpty then [] else [classify_token curr]

/-- The character loop of `tokenize`, carrying the pending buffer and the
`in_quotes` flag. -/
def tokenizeAux : List Char → List Char → Bool → List Token
  | [], curr, _ => flushTok curr
  | c :: cs, curr, inQ =>
    if c = '"' && !inQ then
      flushTok curr ++ tokenizeAux cs ['"'] true
    else if c = '"' && inQ then
      Token.Symbol (String.mk (curr ++ ['"'])) :: tokenizeAux cs [] false
    else if c = '(' && !inQ then
      flushTok curr ++ (Token.OpenParen :: tokenizeAux cs [] inQ)
    else if c = ')' && !inQ then
      flushTok curr ++ (Token.CloseParen :: tokenizeAux cs [] inQ)
    else if (c = ' ' || c = '\n' || c = '\t') && !inQ then
      flushTok curr ++ tokenizeAux cs [] inQ
    else
      tokenizeAux cs (curr ++ [c]) inQ

/-- The `tokenize`: the input string split into quote-aware s-expression tokens. -/
def tokenize (input : String) : List Token :=
  tokenizeAux input.data [] false

mutual

/-- The `Parser::parse_expression`: pops the front token; a symbol or variable is
a leaf, an opening parenthesis starts the child loop, a closing parenthesis or
exhausted input is a failure.  The `fuel` argument only provides a structural
termination measure; `parse_expressionF_stable` below shows that the fuel
`parse` supplies is never exhausted, so the embedding agrees with the
unbounded Rust recursion. -/
def parse_expressionF : Nat → List Token → Option (Node × List Token)
  | 0, _ => none
  | _ + 1, [] => none
  | fuel + 1, Token.OpenParen :: rest => parseNodesF fuel rest []
  | _ + 1, Token.Symbol s :: rest => some (Node.Symbol s, rest)
  | _ + 1, Token.Variable v :: rest => some (Node.Variable v, rest)
  | _ + 1, Token.CloseParen :: _ => none

/-- The `while let Some(next_token) = self.tokens.front()` loop inside
`parse_expression`, accumulating child nodes until the matching closing
parenthesis; running out of tokens is the unmatched-parenthesis failure. -/
def parseNodesF : Nat → List Token → List Node → Option (Node × List Token)
  | 0, _, _ => none
  | _ + 1, [], _ => none
  | _ + 1, Token.CloseParen :: rest, acc => some (Node.Expression acc, rest)
  | fuel + 1, t :: rest, acc =>
    match parse_expressionF fuel (t :: rest) with
    | none => none
    | some (n, r) => parseNodesF fuel r (acc ++ [n])

end

/-- A successful `parse_expressionF` consumes at least one token (joint
statement with `parseNodesF`, proved by induction on the fuel). -/
theorem parseF_length (n : Nat) :
    (∀ ts nd r, parse_expressionF n ts = some (nd, r) → r.length < ts.length) ∧
    (∀ ts acc nd r, parseNodesF n ts acc = some (nd, r) → r.length < ts.length) := by
  induction n with
  | zero => exact ⟨fun ts nd r h => by simp [parse_expressionF] at h,
      fun ts acc nd r h => by simp [parseNodesF] at h⟩
  | succ n ih =>
    constructor
    · intro ts nd r h
      match ts with
      | [] => simp [parse_expressionF] at h
      | Token.OpenParen :: rest =>
        simp only [parse_expressionF] at h
        have := ih.2 rest [] nd r h
        simp only [List.length_cons]; omega
      | Token.Symbol s :: rest =>
        simp only [parse_expressionF, Option.some.injEq, Prod.mk.injEq] at h
        simp only [List.length_cons, h.2]; omega
      | Token.Variable v :: rest =>
        simp only [parse_expressionF, Option.some.injEq, Prod.mk.injEq] at h
        simp only [List.length_cons, h.2]; omega
      | Token.CloseParen :: rest => simp [parse_expressionF] at h
    · intro ts acc nd r h
      match ts with
      | [] => simp [parseNodesF] at h
      | Token.CloseParen :: rest =>
        simp only [parseNodesF, Option.some.injEq, Prod.mk.injEq] at h
        simp only [List.length_cons, h.2]; omega
      | Token.OpenParen :: rest =>
        simp only [parseNodesF] at h
        match hpe : parse_expressionF n (Token.OpenParen :: rest) with
        | none => rw [hpe] at h; exact absurd h (by simp)
        | some (n1, r1) =>
          rw [hpe] at h
          have h1 := ih.1 _ _ _ hpe
          have h2 := ih.2 _ _ _ _ h
          omega
      | Token.Symbol s :: rest =>
        simp only [parseNodesF] at h
        match hpe : parse_expressionF n (Token.Symbol s :: rest) with
        | none => rw [hpe] at h; exact absurd h (by simp)
        | some (n1, r1) =>
          rw [hpe] at h
          have h1 := ih.1 _ _ _ hpe
          have h2 := ih.2 _ _ _ _ h
          omega
      | Token.Variable v :: rest =>
        simp only [parseNodesF] at h
        match hpe : parse_expressionF n (Token.Variable v :: rest) with
        | none => rw [hpe] at h; exact absurd h (by simp)
        | some (n1, r1) =>
          rw [hpe] at h
          have h1 := ih.1 _ _ _ hpe
          have h2 := ih.2 _ _ _ _ h
          omega

/-- Fuel adequacy: once the fuel exceeds twice the token count, its exact
value does not matter.  Hence the fuel passed by `parse` is never the reason
for a `none` result and the embedding matches the unbounded recursion. -/
theorem parseF_stable (n : Nat) : ∀ m, n ≤ m →
    (∀ ts, 2 * ts.length + 1 ≤ n → parse_expressionF n ts = parse_expressionF m ts) ∧
    (∀ ts acc, 2 * ts.length + 2 ≤ n → parseNodesF n ts acc = parseNodesF m ts acc) := by
  induction n with
  | zero => intro m hm; exact ⟨fun ts h => by omega, fun ts acc h => by omega⟩
  | succ n ih =>
    intro m hm
    match m, hm with
    | m + 1, hm =>
      have hnm : n ≤ m := by omega
      constructor
      · intro ts hts
        match ts with
        | [] => simp [parse_expressionF]
        | Token.OpenParen :: rest =>
          simp only [parse_expressionF]
          exact (ih m hnm).2 rest [] (by simp at hts; omega)
        | Token.Symbol s :: rest => simp [parse_expressionF]
        | Token.Variable v :: rest => simp [parse_expressionF]
        | Token.CloseParen :: rest => simp [parse_expressionF]
      · intro ts acc hts
        match ts with
        | [] => simp [parseNodesF]
        | Token.CloseParen :: rest => simp [parseNodesF]
        | Token.OpenParen :: rest =>
          have hpe := (ih m hnm).1 (Token.OpenParen :: rest) (by simp at hts ⊢; omega)
          simp only [parseNodesF, ← hpe]
          match hres : parse_expressionF n (Token.OpenParen :: rest) with
          | none => rfl
          | some (n1, r1) =>
            have hlen := (parseF_length n).1 _ _ _ hres
            exact (ih m hnm).2 r1 (acc ++ [n1]) (by simp at hlen hts; omega)
        | Token.Symbol s :: rest =>
          have hpe := (ih m hnm).1 (Token.Symbol s :: rest) (by simp at hts ⊢; omega)
          simp only [parseNodesF, ← hpe]
          match hres : parse_expressionF n (Token.Symbol s :: rest) with
          | none => rfl
          | some (n1, r1) =>
            have hlen := (parseF_length n).1 _ _ _ hres
            exact (ih m hnm).2 r1 (acc ++ [n1]) (by simp at hlen hts; omega)
        | Token.Variable v :: rest =>
          have hpe := (ih m hnm).1 (Token.Variable v :: rest) (by simp at hts ⊢; omega)
          simp only [parseNodesF, ← hpe]
          match hres : parse_expressionF n (Token.Variable v :: rest) with
          | none => rfl
          | some (n1, r1) =>
            have hlen := (parseF_length n).1 _ _ _ hres
            exact (ih m hnm).2 r1 (acc ++ [n1]) (by simp at hlen hts; omega)

/-- The `Parser::parse`: a single `parse_expression` call on the whole token list;
remaining tokens are ignored. -/
def parse (ts : List Token) : Option Node :=
  (parse_expressionF (2 * ts.length + 1) ts).map (fun p => p.1)

/-- Matches `matches!(node, Node::Variable(_))`. -/
def isVariableNode : Node → Bool
  | Node.Variable _ => true
  | _ => false

/-- The `has_variable`: some direct child is a variable. -/
def hasVariable (ns : List Node) : Bool := ns.any isVariableNode

mutual

/-- One child's contribution to the `has_inner_link_template` closure inside
`needs_link_template`: a sub-expression that needs a template (body inlined
at the recursive occurrence) or holds a direct variable. -/
def nltNode : Node → Bool
  | Node.Expression sub => (hasVariable sub && !(nltChildCheck sub)) || hasVariable sub
  | _ => false

/-- The `nodes.iter().any(...)` loop of that closure. -/
def nltChildCheck : List Node → Bool
  | [] => false
  | n :: rest => nltNode n || nltChildCheck rest

end

/-- The `needs_link_template`: a direct variable is present and no child
expression itself needs a template tag or holds a direct variable. -/
def needs_link_template (ns : List Node) : Bool :=
  hasVariable ns && !(nltChildCheck ns)

/-- The `has_inner_link_template` computation shared verbatim by
`generate_output` and `generate_output_inner`: some child expression needs a
template, or some grandchild expression needs one or has a direct variable. -/
def inner_template_check (ns : List Node) : Bool :=
  ns.any fun n =>
    match n with
    | Node.Expression sub =>
      needs_link_template sub ||
        sub.any fun m =>
          match m with
          | Node.Expression inner => needs_link_template inner || hasVariable inner
          | _ => false
    | _ => false

/-- Tag chosen by `generate_output` for the top-level expression:
`LINK_TEMPLATE` or `LINK_TEMPLATE2`, never `LINK`. -/
def top_link_type (ns : List Node) : String :=
  if needs_link_template ns && !inner_template_check ns then "LINK_TEMPLATE"
  else "LINK_TEMPLATE2"

/-- Tag chosen by `generate_output_inner` for a nested expression. -/
def inner_link_type (ns : List Node) : String :=
  if needs_link_template ns && !inner_template_check ns then "LINK_TEMPLATE"
  else if needs_link_template ns || inner_template_check ns then "LINK_TEMPLATE2"
  else "LINK"

/-- The `parts.join(" ")`. -/
def joinSpace : List String → String
  | [] => ""
  | [x] => x
  | x :: xs => x ++ " " ++ joinSpace xs

mutual

/-- The `generate_output_inner`: leaf tokens, or a tagged expression header
followed by the children's tokens. -/
def generate_output_inner : Node → String
  | Node.Symbol s => "NODE Symbol " ++ s
  | Node.Variable v => "VARIABLE " ++ v
  | Node.Expression ns =>
    joinSpace ((inner_link_type ns ++ " Expression " ++ toString ns.length) :: genParts ns)

/-- The `for node in nodes { parts.push(generate_output_inner(node)) }` loop. -/
def genParts : List Node → List String
  | [] => []
  | n :: rest => generate_output_inner n :: genParts rest

end

/-- The `generate_output`: top-level emission; expressions use the top-level tag
rule, leaves fall through to `generate_output_inner`. -/
def generate_output : Node → String
  | Node.Expression ns =>
    joinSpace ((top_link_type ns ++ " Expression " ++ toString ns.length) :: genParts ns)
  | n => generate_output_inner n

/-- The `translate`: parse, emit; parse failure yields the `"Parse error"`
sentinel. -/
def translate (input : String) : String :=
  match parse (tokenize input) with
  | some ast => generate_output ast
  | none => "Parse error"

/-! ### Derived facts about the tag computation -/

mutual

/-- A variable occurs anywhere in the subtree of a node. -/
def nodeHasVarDeep : Node → Bool
  | Node.Symbol _ => false
  | Node.Variable _ => true
  | Node.Expression ns => listHasVarDeep ns

/-- A variable occurs anywhere below a list of children. -/
def listHasVarDeep : List Node → Bool
  | [] => false
  | n :: rest => nodeHasVarDeep n || listHasVarDeep rest

end

/-- A variable occurs at nesting depth exactly 2 below an expression with
children `ns` (i.e. as a direct child of a child expression). -/
def hasVarAtDepth2 (ns : List Node) : Bool :=
  ns.any fun n =>
    match n with
    | Node.Expression sub => hasVariable sub
    | _ => false

/-- A variable occurs at nesting depth exactly 3 below an expression with
children `ns`. -/
def hasVarAtDepth3 (ns : List Node) : Bool :=
  ns.any fun n =>
    match n with
    | Node.Expression sub => hasVarAtDepth2 sub
    | _ => false

theorem nltNode_eq (n : Node) :
    nltNode n = (match n with | Node.Expression sub => hasVariable sub | _ => false) := by
  cases n with
  | Symbol s => rfl
  | Variable v => rfl
  | Expression sub => cases h : hasVariable sub <;> simp [nltNode, h]

theorem nltChildCheck_eq (ns : List Node) : nltChildCheck ns = hasVarAtDepth2 ns := by
  induction ns with
  | nil => rfl
  | cons n rest ih =>
    simp only [nltChildCheck, nltNode_eq, hasVarAtDepth2, List.any_cons] at *
    rw [ih]

theorem needs_link_template_eq (ns : List Node) :
    needs_link_template ns = (hasVariable ns && !hasVarAtDepth2 ns) := by
  rw [needs_link_template, nltChildCheck_eq]

theorem list_any_or (l : List α) (f g : α → Bool) :
    (l.any fun x => f x || g x) = (l.any f || l.any g) := by
  induction l with
  | nil => rfl
  | cons x xs ih =>
    simp only [List.any_cons, ih]
    cases f x <;> cases g x <;> cases xs.any f <;> cases xs.any g <;> rfl

theorem inner_template_check_eq (ns : List Node) :
    inner_template_check ns = (hasVarAtDepth2 ns || hasVarAtDepth3 ns) := by
  have h1 : inner_template_check ns = ns.any fun n =>
      match n with
      | Node.Expression sub => hasVariable sub || hasVarAtDepth2 sub
      | _ => false := by
    unfold inner_template_check
    congr 1
    funext n
    cases n with
    | Symbol s => rfl
    | Variable v => rfl
    | Expression sub =>
      have hg : (sub.any fun m =>
          match m with
          | Node.Expression inner => needs_link_template inner || hasVariable inner
          | _ => false) = hasVarAtDepth2 sub := by
        unfold hasVarAtDepth2
        congr 1
        funext m
        cases m with
        | Symbol s => rfl
        | Variable v => rfl
        | Expression inner =>
          show (needs_link_template inner || hasVariable inner) = hasVariable inner
          rw [needs_link_template_eq]
          cases h : hasVariable inner <;> simp [h]
      show (needs_link_template sub || _) = _
      rw [hg, needs_link_template_eq]
      cases h1 : hasVariable sub <;> cases h2 : hasVarAtDepth2 sub <;> simp [h1, h2]
  have h2 : (fun n =>
      match n with
      | Node.Expression sub => hasVariable sub || hasVarAtDepth2 sub
      | _ => false) = fun n =>
        ((match n with
          | Node.Expression sub => hasVariable sub
          | _ => false) ||
        (match n with
          | Node.Expression sub => hasVarAtDepth2 sub
          | _ => false)) := by
    funext n
    cases n <;> rfl
  rw [h1, h2, list_any_or]
  rfl

theorem deep_of_hasVariable {ns : List Node} (h : hasVariable ns = true) :
    listHasVarDeep ns = true := by
  induction ns with
  | nil => simp [hasVariable] at h
  | cons n rest ih =>
    simp only [hasVariable, List.any_cons, Bool.or_eq_true] at h
    simp only [listHasVarDeep, Bool.or_eq_true]
    rcases h with h | h
    · cases n <;> simp_all [isVariableNode, nodeHasVarDeep]
    · exact Or.inr (ih h)

theorem deep_of_hasVarAtDepth2 {ns : List Node} (h : hasVarAtDepth2 ns = true) :
    listHasVarDeep ns = true := by
  induction ns with
  | nil => simp [hasVarAtDepth2] at h
  | cons n rest ih =>
    simp only [hasVarAtDepth2, List.any_cons, Bool.or_eq_true] at h
    simp only [listHasVarDeep, Bool.or_eq_true]
    rcases h with h | h
    · cases n with
      | Symbol s => simp at h
      | Variable v => simp at h
      | Expression sub =>
        exact Or.inl (by simpa [nodeHasVarDeep] using deep_of_hasVariable h)
    · exact Or.inr (ih h)

theorem deep_of_hasVarAtDepth3 {ns : List Node} (h : hasVarAtDepth3 ns = true) :
    listHasVarDeep ns = true := by
  induction ns with
  | nil => simp [hasVarAtDepth3] at h
  | cons n rest ih =>
    simp only [hasVarAtDepth3, List.any_cons, Bool.or_eq_true] at h
    simp only [listHasVarDeep, Bool.or_eq_true]
    rcases h with h | h
    · cases n with
      | Symbol s => simp at h
      | Variable v => simp at h
      | Expression sub =>
        exact Or.inl (by simpa [nodeHasVarDeep] using deep_of_hasVarAtDepth2 h)
    · exact Or.inr (ih h)

/-- Characterization of the nested tag: `LINK` is emitted exactly when no
variable occurs at depth 1, 2 or 3 below the expression (variables nested
deeper do not influence the tag). -/
theorem inner_link_type_eq_LINK (ns : List Node) :
    inner_link_type ns = "LINK" ↔
      (hasVariable ns || hasVarAtDepth2 ns || hasVarAtDepth3 ns) = false := by
  rw [inner_link_type, needs_link_template_eq, inner_template_check_eq]
  cases h1 : hasVariable ns <;> cases h2 : hasVarAtDepth2 ns <;>
    cases h3 : hasVarAtDepth3 ns <;> simp

/-- The top-level tag is never `LINK`. -/
theorem top_link_type_ne_LINK (ns : List Node) : top_link_type ns ≠ "LINK" := by
  rw [top_link_type]
  split <;> decide

/-- All variables of `cs` (if any) sit among its direct children: every child
that is an expression is entirely variable-free. -/
def varsOnlyDirect (cs : List Node) : Bool :=
  cs.all fun m =>
    match m with
    | Node.Expression inner => !listHasVarDeep inner
    | _ => true

theorem joinSpace_cons_data (x : String) (xs : List String) :
    ∃ t : List Char, (joinSpace (x :: xs)).data = x.data ++ t := by
  cases xs with
  | nil => exact ⟨[], by simp [joinSpace]⟩
  | cons y ys =>
    refine ⟨(" " ++ joinSpace (y :: ys)).data, ?_⟩
    show ((x ++ " ") ++ joinSpace (y :: ys)).data = _
    simp [String.data_append, List.append_assoc]

theorem top_link_type_data (ns : List Node) :
    ∃ u, (top_link_type ns).data = 'L' :: u := by
  rw [top_link_type]
  split
  · exact ⟨"INK_TEMPLATE".data, rfl⟩
  · exact ⟨"INK_TEMPLATE2".data, rfl⟩

/-- Every successful output of `generate_output` starts with `L`, `N` or `V`,
so it can never collide with the `"Parse error"` sentinel. -/
theorem generate_output_data_head (nd : Node) :
    ∃ c cs, (generate_output nd).data = c :: cs ∧ (c = 'L' ∨ c = 'N' ∨ c = 'V') := by
  cases nd with
  | Symbol s =>
    refine ⟨'N', "ODE Symbol ".data ++ s.data, ?_, Or.inr (Or.inl rfl)⟩
    show ("NODE Symbol " ++ s).data = 'N' :: ("ODE Symbol ".data ++ s.data)
    rw [String.data_append]
    rfl
  | Variable v =>
    refine ⟨'V', "ARIABLE ".data ++ v.data, ?_, Or.inr (Or.inr rfl)⟩
    show ("VARIABLE " ++ v).data = 'V' :: ("ARIABLE ".data ++ v.data)
    rw [String.data_append]
    rfl
  | Expression ns =>
    obtain ⟨t, ht⟩ :=
      joinSpace_cons_data (top_link_type ns ++ " Expression " ++ toString ns.length) (genParts ns)
    obtain ⟨u, hu⟩ := top_link_type_data ns
    refine ⟨'L', u ++ " Expression ".data ++ (toString ns.length).data ++ t, ?_, Or.inl rfl⟩
    show (joinSpace ((top_link_type ns ++ " Expression " ++ toString ns.length) :: genParts ns)).data = _
    rw [ht, String.data_append, String.data_append, hu]
    simp [List.append_assoc]

theorem generate_output_ne_sentinel (nd : Node) : generate_output nd ≠ "Parse error" := by
  intro h
  obtain ⟨c, cs, hdata, hc⟩ := generate_output_data_head nd
  rw [h] at hdata
  have hp : ('P' : Char) :: "arse error".data = c :: cs := hdata
  have hpc : ('P' : Char) = c := by injection hp
  rcases hc with rfl | rfl | rfl <;> exact absurd hpc (by decide)

end Helpers

/-! ## Claims about the wire translator -/

open Helpers in
/-- C1 (counterexample): on `"(A (B C))"` the translator does not return the
string the claim demands — the top-level tag is `LINK_TEMPLATE2`, not
`LINK`. -/
theorem C1_counterexample :
    Helpers.translate "(A (B C))" ≠
      "LINK Expression 2 NODE Symbol A LINK Expression 2 NODE Symbol B NODE Symbol C" := by
  decide

open Helpers in
/-- C1 (amended): `"(A (B C))"` translates to
`"LINK_TEMPLATE2 Expression 2 NODE Symbol A LINK Expression 2 NODE Symbol B NODE Symbol C"`;
in general a top-level expression with no variables anywhere in its subtree is
emitted with the `LINK_TEMPLATE2` tag, while a nested variable-free expression
is emitted with the `LINK` tag. -/
theorem C1_theorem :
    Helpers.translate "(A (B C))" =
      "LINK_TEMPLATE2 Expression 2 NODE Symbol A LINK Expression 2 NODE Symbol B NODE Symbol C" ∧
    ∀ ns : List Node, listHasVarDeep ns = false →
      top_link_type ns = "LINK_TEMPLATE2" ∧ inner_link_type ns = "LINK" := by
  refine ⟨rfl, fun ns h => ?_⟩
  have hv : hasVariable ns = false := by
    cases hv : hasVariable ns
    · rfl
    · rw [deep_of_hasVariable hv] at h; exact absurd h (by decide)
  have h2 : hasVarAtDepth2 ns = false := by
    cases h2 : hasVarAtDepth2 ns
    · rfl
    · rw [deep_of_hasVarAtDepth2 h2] at h; exact absurd h (by decide)
  have h3 : hasVarAtDepth3 ns = false := by
    cases h3 : hasVarAtDepth3 ns
    · rfl
    · rw [deep_of_hasVarAtDepth3 h3] at h; exact absurd h (by decide)
  constructor
  · rw [top_link_type, needs_link_template_eq, hv]
    simp
  · exact (inner_link_type_eq_LINK ns).mpr (by rw [hv, h2, h3]; rfl)

open Helpers in
/-- C1 (witness): the amended theorem applied to the children of the parsed
`"(A (B C))"`. -/
theorem C1_witness :
    top_link_type [Node.Symbol "A", Node.Expression [Node.Symbol "B", Node.Symbol "C"]] =
      "LINK_TEMPLATE2" ∧
    inner_link_type [Node.Symbol "A", Node.Expression [Node.Symbol "B", Node.Symbol "C"]] =
      "LINK" :=
  C1_theorem.2 [Node.Symbol "A", Node.Expression [Node.Symbol "B", Node.Symbol "C"]] (by rfl)

open Helpers in
/-- C2 (counterexample): the input `"(Z (A (B (C (D $x)))))"` is accepted by
the parser, the nested expression `(A (B (C (D $x))))` has a variable among
its descendants, and yet the tag emitted for it is `LINK`. -/
theorem C2_counterexample :
    Helpers.parse (Helpers.tokenize "(Z (A (B (C (D $x)))))") =
      some (Node.Expression [Node.Symbol "Z", Node.Expression [Node.Symbol "A",
        Node.Expression [Node.Symbol "B", Node.Expression [Node.Symbol "C",
          Node.Expression [Node.Symbol "D", Node.Variable "x"]]]]]) ∧
    listHasVarDeep [Node.Symbol "A", Node.Expression [Node.Symbol "B",
      Node.Expression [Node.Symbol "C",
        Node.Expression [Node.Symbol "D", Node.Variable "x"]]]] = true ∧
    Helpers.generate_output_inner (Node.Expression [Node.Symbol "A",
      Node.Expression [Node.Symbol "B", Node.Expression [Node.Symbol "C",
        Node.Expression [Node.Symbol "D", Node.Variable "x"]]]]) =
      "LINK Expression 2 NODE Symbol A LINK_TEMPLATE2 Expression 2 NODE Symbol B LINK_TEMPLATE2 Expression 2 NODE Symbol C LINK_TEMPLATE Expression 2 NODE Symbol D VARIABLE x" :=
  ⟨rfl, rfl, rfl⟩

open Helpers in
/-- C2 (amended): the tag of a nested expression differs from `LINK` exactly
when a variable occurs within three nesting levels below it — a variable at
depth four or deeper still produces `LINK`; and the top-level tag is never
`LINK`. -/
theorem C2_theorem :
    (∀ ns : List Node,
      (inner_link_type ns = "LINK_TEMPLATE" ∨ inner_link_type ns = "LINK_TEMPLATE2") ↔
        (hasVariable ns || hasVarAtDepth2 ns || hasVarAtDepth3 ns) = true) ∧
    ∀ ns : List Node, top_link_type ns ≠ "LINK" := by
  refine ⟨fun ns => ?_, top_link_type_ne_LINK⟩
  rw [inner_link_type, needs_link_template_eq, inner_template_check_eq]
  cases h1 : hasVariable ns <;> cases h2 : hasVarAtDepth2 ns <;>
    cases h3 : hasVarAtDepth3 ns <;> simp

open Helpers in
/-- C2 (witness): the tag characterization applied to an expression with one
direct variable child. -/
theorem C2_witness :
    Helpers.inner_link_type [Node.Variable "x"] = "LINK_TEMPLATE" ∨
    Helpers.inner_link_type [Node.Variable "x"] = "LINK_TEMPLATE2" :=
  (C2_theorem.1 [Node.Variable "x"]).mpr (by decide)

open Helpers in
/-- C6 (counterexample): `"(A) B"` has trailing tokens after a complete
expression, yet `translate` does not return the `"Parse error"` sentinel —
the parser stops after the first expression and ignores the rest. -/
theorem C6_counterexample :
    Helpers.parse_expressionF (2 * (Helpers.tokenize "(A) B").length + 1)
        (Helpers.tokenize "(A) B") =
      some (Node.Expression [Node.Symbol "A"], [Token.Symbol "B"]) ∧
    Helpers.translate "(A) B" ≠ "Parse error" :=
  ⟨rfl, by decide⟩

open Helpers in
/-- C6 (amended): `translate` returns the sentinel `"Parse error"` exactly
when parsing fails (unmatched or unexpected parentheses, empty input);
trailing tokens after a complete expression are ignored and are not a parse
failure. -/
theorem C6_theorem (s : String) :
    Helpers.translate s = "Parse error" ↔ Helpers.parse (Helpers.tokenize s) = none := by
  constructor
  · intro h
    cases hp : Helpers.parse (Helpers.tokenize s) with
    | none => rfl
    | some ast =>
      exfalso
      have hts : Helpers.translate s = generate_output ast := by
        simp only [Helpers.translate, hp]
      exact generate_output_ne_sentinel ast (hts ▸ h)
  · intro h
    simp only [Helpers.translate, h]

open Helpers in
/-- C6 (witness): the sentinel equivalence applied to the unmatched-paren
input `"(A"`. -/
theorem C6_witness : Helpers.translate "(A" = "Parse error" :=
  ( C6_theorem "(A").mpr (by rfl)

open Helpers in
/-- C8: `"(Foo (Bar $x))"` translates with outer tag `LINK_TEMPLATE2` and
inner tag `LINK_TEMPLATE`; in general, when an expression has no direct
variable child and one of its children is an expression whose variables all
sit among its own direct children, the outer expression is tagged
`LINK_TEMPLATE2` and that inner expression `LINK_TEMPLATE`. -/
theorem C8_theorem :
    Helpers.translate "(Foo (Bar $x))" =
      "LINK_TEMPLATE2 Expression 2 NODE Symbol Foo LINK_TEMPLATE Expression 2 NODE Symbol Bar VARIABLE x" ∧
    ∀ (ns cs : List Node), hasVariable ns = false → Node.Expression cs ∈ ns →
      hasVariable cs = true → varsOnlyDirect cs = true →
      top_link_type ns = "LINK_TEMPLATE2" ∧ inner_link_type cs = "LINK_TEMPLATE" := by
  refine ⟨rfl, fun ns cs hns _hmem hcs hdir => ?_⟩
  have hd2 : hasVarAtDepth2 cs = false := by
    rw [hasVarAtDepth2, List.any_eq_false]
    intro m hm
    have hall := List.all_eq_true.mp hdir m hm
    cases m with
    | Symbol s => simp
    | Variable v => simp
    | Expression inner =>
      have hall' : (!listHasVarDeep inner) = true := hall
      have hfree : listHasVarDeep inner = false := by simpa using hall'
      show ¬ hasVariable inner = true
      intro hv
      rw [deep_of_hasVariable hv] at hfree
      exact absurd hfree (by decide)
  have hd3 : hasVarAtDepth3 cs = false := by
    rw [hasVarAtDepth3, List.any_eq_false]
    intro m hm
    have hall := List.all_eq_true.mp hdir m hm
    cases m with
    | Symbol s => simp
    | Variable v => simp
    | Expression inner =>
      have hall' : (!listHasVarDeep inner) = true := hall
      have hfree : listHasVarDeep inner = false := by simpa using hall'
      show ¬ hasVarAtDepth2 inner = true
      intro hv
      rw [deep_of_hasVarAtDepth2 hv] at hfree
      exact absurd hfree (by decide)
  constructor
  · rw [top_link_type, needs_link_template_eq, hns]
    simp
  · rw [inner_link_type, needs_link_template_eq, inner_template_check_eq, hcs, hd2, hd3]
    simp

open Helpers in
/-- C8 (witness): the nesting-rule theorem applied to the AST of
`"(Foo (Bar $x))"`. -/
theorem C8_witness :
    top_link_type [Node.Symbol "Foo",
      Node.Expression [Node.Symbol "Bar", Node.Variable "x"]] = "LINK_TEMPLATE2" ∧
    inner_link_type [Node.Symbol "Bar", Node.Variable "x"] = "LINK_TEMPLATE" :=
  C8_theorem.2 [Node.Symbol "Foo", Node.Expression [Node.Symbol "Bar", Node.Variable "x"]]
    [Node.Symbol "Bar", Node.Variable "x"] (by rfl) (by simp) (by rfl) (by rfl)

/-! ## Bus message processing (`rust-das/src/lib.rs`) -/

namespace DasNode

/-- The `enum ServerStatus`. -/
inductive ServerStatus where
  | Ready
  | Processing
  | Stopped
  | Unknown
deriving DecidableEq, Repr

/-- The `MessageData` of the gRPC protocol: command, ordered args, sender,
broadcast flag and visited recipients. -/
structure MessageData where
  command : String
  args : List String
  sender : String
  is_broadcast : Bool
  visited_recipients : List String
deriving DecidableEq, Repr

/-- The `DASNode::process_message`: pure dispatch on the command string returning
the new status and the results contributed by this message. -/
def process_message (msg : MessageData) : ServerStatus × List String :=
  if msg.command = "node_joined_network" then (ServerStatus.Processing, [])
  else if msg.command = "query_answer_tokens_flow" then (ServerStatus.Processing, msg.args)
  else if msg.command = "query_answer_flow" then (ServerStatus.Processing, [])
  else if msg.command = "pattern_matching_query" then (ServerStatus.Processing, [])
  else if msg.command = "query_answers_finished" then (ServerStatus.Ready, [])
  else (ServerStatus.Unknown, [])

/-- The `DASNode::execute_message` as a transition on the node's observable state
(status, accumulated results): the processed results are appended and the
returned status overwrites the stored one. -/
def execute_message (st : ServerStatus × List String) (msg : MessageData) :
    ServerStatus × List String :=
  ((process_message msg).1, st.2 ++ (process_message msg).2)

end DasNode

/-- C7 (counterexample): a message with the unrecognized command `"bogus"`
does not leave the node state unchanged — a `Ready` node ends up `Unknown`
(the accumulated results are indeed untouched). -/
theorem C7_counterexample :
    DasNode.execute_message (DasNode.ServerStatus.Ready, [])
        { command := "bogus", args := ["a"], sender := "s", is_broadcast := false,
          visited_recipients := [] } ≠ (DasNode.ServerStatus.Ready, []) ∧
    DasNode.execute_message (DasNode.ServerStatus.Ready, [])
        { command := "bogus", args := ["a"], sender := "s", is_broadcast := false,
          visited_recipients := [] } = (DasNode.ServerStatus.Unknown, []) :=
  ⟨by decide, rfl⟩

/-- C7 (amended): for every message whose command is none of the five known
commands, `execute_message` leaves the accumulated results unchanged but sets
the node's status to `Unknown` (it does not leave the status unchanged). -/
theorem C7_theorem (st : DasNode.ServerStatus) (res : List String)
    (msg : DasNode.MessageData)
    (h : msg.command ∉ (["pattern_matching_query", "node_joined_network",
      "query_answer_tokens_flow", "query_answer_flow",
      "query_answers_finished"] : List String)) :
    DasNode.execute_message (st, res) msg = (DasNode.ServerStatus.Unknown, res) := by
  simp only [List.mem_cons, List.not_mem_nil, or_false, not_or] at h
  obtain ⟨h1, h2, h3, h4, h5⟩ := h
  simp [DasNode.execute_message, DasNode.process_message, h1, h2, h3, h4, h5]

/-- C7 (witness): the amended theorem applied to a `Processing` node and an
unrecognized command. -/
theorem C7_witness :
    DasNode.execute_message (DasNode.ServerStatus.Processing, ["r1"])
        { command := "unknown_cmd", args := [], sender := "s", is_broadcast := true,
          visited_recipients := ["v"] } = (DasNode.ServerStatus.Unknown, ["r1"]) :=
  C7_theorem DasNode.ServerStatus.Processing ["r1"]
    { command := "unknown_cmd", args := [], sender := "s", is_broadcast := true,
      visited_recipients := ["v"] } (by decide)

/-! ## Distributed answer decoding (`lib/src/metta/runner/stdlib/das.rs`) -/

namespace DasStdlib

/-- The `variables: HashMap<String, String>` of `query_with_das`, modelled as
a finite map from variable names to their current value strings. -/
abbrev VarMap := Finmap (fun _ : String => String)

/-- The `for (idx, word) in splitted.iter().enumerate()` loop of the answer
decoding in `query_with_das`: when the current word is a key of the variables
map its value is set to the immediately following token, read as
`splitted[idx + 1]` without a bounds check.  `none` models the out-of-bounds
panic occurring when a key sits at the last position. -/
def decodeLoop : List String → VarMap → Option VarMap
  | [], m => some m
  | [w], m => if w ∈ m then none else some m
  | w :: next :: rest, m =>
    if w ∈ m then decodeLoop (next :: rest) (m.insert w next)
    else decodeLoop (next :: rest) m

/-- Decoding one answer line against the current variables map. -/
def decodeLine (m : VarMap) (answer : List String) : Option VarMap :=
  decodeLoop answer m

/-- The variable-extraction loop of `query_with_das`: every token equal to
`"VARIABLE"` makes the following token (read as `splitted[idx + 1]` without a
bounds check) a key of the variables map, with the empty string as initial
value.  `none` models the out-of-bounds panic when `"VARIABLE"` is last. -/
def extractLoop : List String → VarMap → Option VarMap
  | [], m => some m
  | [w], m => if w = "VARIABLE" then none else some m
  | w :: next :: rest, m =>
    if w = "VARIABLE" then extractLoop (next :: rest) (m.insert next "")
    else extractLoop (next :: rest) m

/-- The `query_with_das` extraction entry point: scan the whitespace-split query
tokens starting from an empty map. -/
def extract_variables (tokens : List String) : Option VarMap :=
  extractLoop tokens ∅

/-- The `for result in &results` loop of `query_with_das` with the default
`count = 0` (no early break): each answer line updates the shared variables
map and one `Bindings` per answer — the map with all its keys — is pushed
into the result list.  The `Bindings` built from the map binds each key `k`
to the symbol atom of the map's value, so the map itself represents it. -/
def processAnswers (m : VarMap) : List (List String) → Option (List VarMap)
  | [] => some []
  | a :: rest =>
    match decodeLine m a with
    | none => none
    | some m' =>
      match processAnswers m' rest with
      | none => none
      | some bs => some (m' :: bs)

/-- Decoding never changes the key set and, for a key absent from the answer,
never changes its value; for a key present in the answer the final value is
the token following one of its occurrences. -/
theorem decodeLoop_binds (ans : List String) :
    ∀ m m', decodeLoop ans m = some m' → ∀ v, v ∈ m →
      (v ∈ ans → ∃ j, ans.get? j = some v ∧ m'.lookup v = ans.get? (j + 1)) ∧
      (v ∉ ans → m'.lookup v = m.lookup v) := by
  induction ans with
  | nil =>
    intro m m' h v _
    simp only [decodeLoop, Option.some.injEq] at h
    subst h
    exact ⟨fun hocc => absurd hocc (List.not_mem_nil v), fun _ => rfl⟩
  | cons w tail ih =>
    intro m m' h v hv
    cases tail with
    | nil =>
      by_cases hw : w ∈ m
      · simp [decodeLoop, hw] at h
      · simp only [decodeLoop, if_neg hw, Option.some.injEq] at h
        subst h
        constructor
        · intro hocc
          rw [List.mem_singleton] at hocc
          subst hocc
          exact absurd hv hw
        · intro _; rfl
    | cons next rest =>
      by_cases hw : w ∈ m
      · simp only [decodeLoop, if_pos hw] at h
        have hvi : v ∈ m.insert w next := Finmap.mem_insert.mpr (Or.inr hv)
        have IH := ih (m.insert w next) m' h v hvi
        by_cases hvw : v = w
        · subst hvw
          by_cases hocc2 : v ∈ next :: rest
          · obtain ⟨j, hj1, hj2⟩ := IH.1 hocc2
            exact ⟨fun _ => ⟨j + 1, by simpa using hj1, by simpa using hj2⟩,
              fun hnocc => absurd (List.mem_cons_self _ _) hnocc⟩
          · have hlook := IH.2 hocc2
            rw [Finmap.lookup_insert] at hlook
            exact ⟨fun _ => ⟨0, rfl, by rw [hlook]; rfl⟩,
              fun hnocc => absurd (List.mem_cons_self _ _) hnocc⟩
        · have hlookpre : (m.insert w next).lookup v = m.lookup v :=
            Finmap.lookup_insert_of_ne _ hvw
          constructor
          · intro hocc
            have hocc2 : v ∈ next :: rest := by
              rcases List.mem_cons.mp hocc with h1 | h1
              · exact absurd h1 hvw
              · exact h1
            obtain ⟨j, hj1, hj2⟩ := IH.1 hocc2
            exact ⟨j + 1, by simpa using hj1, by simpa using hj2⟩
          · intro hnocc
            have hocc2 : v ∉ next :: rest := fun hc => hnocc (List.mem_cons_of_mem _ hc)
            rw [IH.2 hocc2, hlookpre]
      · simp only [decodeLoop, if_neg hw] at h
        have IH := ih m m' h v hv
        by_cases hvw : v = w
        · subst hvw; exact absurd hv hw
        · constructor
          · intro hocc
            have hocc2 : v ∈ next :: rest := by
              rcases List.mem_cons.mp hocc with h1 | h1
              · exact absurd h1 hvw
              · exact h1
            obtain ⟨j, hj1, hj2⟩ := IH.1 hocc2
            exact ⟨j + 1, by simpa using hj1, by simpa using hj2⟩
          · intro hnocc
            exact IH.2 fun hc => hnocc (List.mem_cons_of_mem _ hc)

end DasStdlib

namespace DasStdlib

/-- If the last token of a line is a key of the variables map, the decoding
loop reads one position past the end — the modelled panic. -/
theorem decodeLoop_last (ts : List String) :
    ∀ (m : VarMap) (v : String), ts.getLast? = some v → v ∈ m →
      decodeLoop ts m = none := by
  induction ts with
  | nil => intro m v h _; simp at h
  | cons w tail ih =>
    intro m v h hv
    cases tail with
    | nil =>
      have hw : w = v := by simpa using h
      subst hw
      simp [decodeLoop, hv]
    | cons next rest =>
      have hlast : (next :: rest).getLast? = some v := by
        rw [← h, List.getLast?_cons_cons]
      by_cases hw : w ∈ m
      · simp only [decodeLoop, if_pos hw]
        exact ih (m.insert w next) v hlast (Finmap.mem_insert.mpr (Or.inr hv))
      · simp only [decodeLoop, if_neg hw]
        exact ih m v hlast hv

/-- If the last query token is the literal `"VARIABLE"`, the extraction loop
reads one position past the end — the modelled panic. -/
theorem extractLoop_last (ts : List String) :
    ∀ m : VarMap, ts.getLast? = some "VARIABLE" → extractLoop ts m = none := by
  induction ts with
  | nil => intro m h; simp at h
  | cons w tail ih =>
    intro m h
    cases tail with
    | nil =>
      have hw : w = "VARIABLE" := by simpa using h
      subst hw
      simp [extractLoop]
    | cons next rest =>
      have hlast : (next :: rest).getLast? = some "VARIABLE" := by
        rw [← h, List.getLast?_cons_cons]
      by_cases hw : w = "VARIABLE"
      · simp only [extractLoop, if_pos hw]
        exact ih (m.insert next "") hlast
      · simp only [extractLoop, if_neg hw]
        exact ih m hlast

end DasStdlib

set_option maxHeartbeats 2000000 in
/-- C4: in the answer decoding of `query_with_das`, every extracted variable
name that appears verbatim in an answer line ends up bound to the token
immediately following (one of) its occurrences; concretely, with variables
`{x, y}` the answer line `"x alpha y beta"` produces the map
`x ↦ alpha, y ↦ beta`, and that `Bindings` is pushed into the returned set. -/
theorem C4_theorem :
    (∀ (m m' : DasStdlib.VarMap) (ans : List String),
      DasStdlib.decodeLine m ans = some m' → ∀ v ∈ m, v ∈ ans →
        ∃ j, ans.get? j = some v ∧ m'.lookup v = ans.get? (j + 1)) ∧
    DasStdlib.decodeLine ((∅ : DasStdlib.VarMap).insert "x" "" |>.insert "y" "")
        ["x", "alpha", "y", "beta"] =
      some ((((∅ : DasStdlib.VarMap).insert "x" "" |>.insert "y" "").insert "x"
        "alpha").insert "y" "beta") ∧
    ((((∅ : DasStdlib.VarMap).insert "x" "" |>.insert "y" "").insert "x"
        "alpha").insert "y" "beta").lookup "x" = some "alpha" ∧
    ((((∅ : DasStdlib.VarMap).insert "x" "" |>.insert "y" "").insert "x"
        "alpha").insert "y" "beta").lookup "y" = some "beta" ∧
    DasStdlib.processAnswers ((∅ : DasStdlib.VarMap).insert "x" "" |>.insert "y" "")
        [["x", "alpha", "y", "beta"]] =
      some [(((∅ : DasStdlib.VarMap).insert "x" "" |>.insert "y" "").insert "x"
        "alpha").insert "y" "beta"] :=
  ⟨fun m m' ans h v hv hocc => (DasStdlib.decodeLoop_binds ans m m' h v hv).1 hocc,
    by rfl, by rfl, by rfl, by rfl⟩

set_option maxHeartbeats 2000000 in
/-- C4 (witness): the binding property applied to the concrete answer line of
the claim, variable `x`. -/
theorem C4_witness :
    ∃ j, (["x", "alpha", "y", "beta"] : List String).get? j = some "x" ∧
      ((((∅ : DasStdlib.VarMap).insert "x" "" |>.insert "y" "").insert "x"
        "alpha").insert "y" "beta").lookup "x" =
        (["x", "alpha", "y", "beta"] : List String).get? (j + 1) :=
  C4_theorem.1 ((∅ : DasStdlib.VarMap).insert "x" "" |>.insert "y" "")
    ((((∅ : DasStdlib.VarMap).insert "x" "" |>.insert "y" "").insert "x"
      "alpha").insert "y" "beta")
    ["x", "alpha", "y", "beta"] (by rfl) "x" (by decide) (by decide)

/-- C10: the decoding loop reads `splitted[idx + 1]` whenever position `idx`
holds an extracted variable name, and the extraction loop reads the token
after every literal `"VARIABLE"`, both without bounds checks; an answer line
ending in a variable name, or a query token string ending in `"VARIABLE"`,
therefore panics (modelled by `none`) instead of producing a result. -/
theorem C10_theorem :
    (∀ (m : DasStdlib.VarMap) (ts : List String) (v : String),
      ts.getLast? = some v → v ∈ m → DasStdlib.decodeLine m ts = none) ∧
    (∀ (ts : List String) (m : DasStdlib.VarMap),
      ts.getLast? = some "VARIABLE" → DasStdlib.extractLoop ts m = none) ∧
    ∀ ts : List String, ts.getLast? = some "VARIABLE" →
      DasStdlib.extract_variables ts = none :=
  ⟨fun m ts v h hv => DasStdlib.decodeLoop_last ts m v h hv,
    fun ts m h => DasStdlib.extractLoop_last ts m h,
    fun ts h => DasStdlib.extractLoop_last ts ∅ h⟩

/-- C10 (witness): the out-of-bounds behaviour at the concrete inputs — an
answer line ending in the variable name `x` and a query ending in
`"VARIABLE"`. -/
theorem C10_witness :
    DasStdlib.decodeLine ((∅ : DasStdlib.VarMap).insert "x" "") ["alpha", "x"] = none ∧
    DasStdlib.extract_variables ["LINK_TEMPLATE", "Expression", "VARIABLE"] = none :=
  ⟨C10_theorem.1 ((∅ : DasStdlib.VarMap).insert "x" "") ["alpha", "x"] "x"
      (by rfl) (by decide),
    C10_theorem.2.2 ["LINK_TEMPLATE", "Expression", "VARIABLE"] (by rfl)⟩

/-! ## Query-builder operation `new-das` (`lib/src/metta/runner/stdlib/das.rs`) -/

namespace NewDasOp

/-- The `atom.to_string().replace("(", "").replace(")", "")`: every parenthesis
character is removed from the display form of the endpoint atom. -/
def stripParens (s : String) : String :=
  String.mk (s.data.filter fun c => ¬(c = '(' ∨ c = ')'))

/-- The `str::split_once(':')`: split at the first colon, `none` when absent. -/
def splitOnceColon : List Char → Option (List Char × List Char)
  | [] => none
  | c :: cs =>
    if c = ':' then some ([], cs)
    else (splitOnceColon cs).map fun p => (c :: p.1, p.2)

/-- The `port_str.parse::<u16>()`: an optional leading `+`, at least one digit,
nothing else, and a value within 16 bits; anything else is a parse failure. -/
def parse_u16 (s : String) : Option Nat :=
  let cs := match s.data with
    | '+' :: rest => rest
    | cs => cs
  if cs = [] then none
  else if cs.all Char.isDigit then
    let v := cs.foldl (fun acc c => acc * 10 + (c.toNat - '0'.toNat)) 0
    if v ≤ 65535 then some v else none
  else none

/-- The `extract_host_and_port`: strip parentheses, split at the first colon and
parse the port; any failure yields the fixed descriptive message. -/
def extract_host_and_port (atomStr : String) : Except String (String × Nat) :=
  match splitOnceColon (stripParens atomStr).data with
  | some (host, portStr) =>
    match parse_u16 (String.mk portStr) with
    | some port => Except.ok (String.mk host, port)
    | none => Except.error "new-das arguments must be a valid endpoint (eg. 0.0.0.0:8080)"
  | none => Except.error "new-das arguments must be a valid endpoint (eg. 0.0.0.0:8080)"

/-- The space handle built on success.  Constructing this value stands for
`new_das_node` + `DistributedAtomSpace::new`; in the code the node creation
and gRPC startup happen only after both endpoints parsed. -/
structure DasSpace where
  server_host : String
  server_port : Nat
  client_host : String
  client_port : Nat
deriving DecidableEq, Repr

/-- The `NewDasOp::execute` over the display forms of the argument atoms: exactly
two arguments, each parsing as `host:port`, produce a space handle; anything
else is a typed execution error. -/
def execute (args : List String) : Except String DasSpace :=
  match args with
  | [server, client] =>
    match extract_host_and_port server with
    | Except.error e => Except.error e
    | Except.ok (sh, sp) =>
      match extract_host_and_port client with
      | Except.error e => Except.error e
      | Except.ok (ch, cp) => Except.ok ⟨sh, sp, ch, cp⟩
  | _ => Except.error "new-das expects 2 arguments (eg !(new-das 0.0.0.0:8080 0.0.0.0:35700)"

theorem parse_u16_le (s : String) (n : Nat) (h : parse_u16 s = some n) : n ≤ 65535 := by
  unfold parse_u16 at h
  split at h <;> simp at h <;> omega

theorem extract_port_le (a host : String) (port : Nat)
    (h : extract_host_and_port a = Except.ok (host, port)) : port ≤ 65535 := by
  unfold extract_host_and_port at h
  split at h
  · rename_i host' portStr heq
    split at h
    · rename_i port' hp
      simp only [Except.ok.injEq, Prod.mk.injEq] at h
      obtain ⟨_, h2⟩ := h
      subst h2
      exact parse_u16_le _ _ hp
    · simp at h
  · simp at h

end NewDasOp

/-- C9: `new-das` argument validation — with two arguments both parsing as
`host:port` with a 16-bit port the operation returns a space handle; a wrong
argument count or a malformed endpoint (such as `"notanendpoint"`) yields the
typed, human-readable execution error before any node is constructed, and the
embedding is total (no panic). -/
theorem C9_theorem :
    (∀ a b sh ch : String, ∀ sp cp : Nat,
      NewDasOp.extract_host_and_port a = Except.ok (sh, sp) →
      NewDasOp.extract_host_and_port b = Except.ok (ch, cp) →
      NewDasOp.execute [a, b] = Except.ok ⟨sh, sp, ch, cp⟩ ∧ sp ≤ 65535 ∧ cp ≤ 65535) ∧
    (∀ args : List String, args.length ≠ 2 →
      NewDasOp.execute args =
        Except.error "new-das expects 2 arguments (eg !(new-das 0.0.0.0:8080 0.0.0.0:35700)") ∧
    (∀ a b e, NewDasOp.extract_host_and_port a = Except.error e →
      NewDasOp.execute [a, b] = Except.error e) ∧
    (∀ a b sh sp e, NewDasOp.extract_host_and_port a = Except.ok (sh, sp) →
      NewDasOp.extract_host_and_port b = Except.error e →
      NewDasOp.execute [a, b] = Except.error e) ∧
    NewDasOp.extract_host_and_port "notanendpoint" =
      Except.error "new-das arguments must be a valid endpoint (eg. 0.0.0.0:8080)" ∧
    NewDasOp.execute ["notanendpoint", "(0.0.0.0:35700)"] =
      Except.error "new-das arguments must be a valid endpoint (eg. 0.0.0.0:8080)" := by
  refine ⟨?_, ?_, ?_, ?_, by rfl, by rfl⟩
  · intro a b sh ch sp cp ha hb
    refine ⟨?_, NewDasOp.extract_port_le a sh sp ha, NewDasOp.extract_port_le b ch cp hb⟩
    simp only [NewDasOp.execute, ha, hb]
  · intro args h
    match args with
    | [] => rfl
    | [a] => rfl
    | [a, b] => exact absurd rfl h
    | a :: b :: c :: rest => rfl
  · intro a b e ha
    simp only [NewDasOp.execute, ha]
  · intro a b sh sp e ha hb
    simp only [NewDasOp.execute, ha, hb]

/-- C9 (witness): the validation theorem applied to two well-formed endpoints
and to the malformed argument lists of the claim. -/
theorem C9_witness :
    (NewDasOp.execute ["(0.0.0.0:8080)", "(0.0.0.0:35700)"] =
      Except.ok ⟨"0.0.0.0", 8080, "0.0.0.0", 35700⟩ ∧ 8080 ≤ 65535 ∧ 35700 ≤ 65535) ∧
    NewDasOp.execute ["only-one"] =
      Except.error "new-das expects 2 arguments (eg !(new-das 0.0.0.0:8080 0.0.0.0:35700)" ∧
    NewDasOp.execute ["notanendpoint", "(0.0.0.0:35700)"] =
      Except.error "new-das arguments must be a valid endpoint (eg. 0.0.0.0:8080)" :=
  ⟨C9_theorem.1 "(0.0.0.0:8080)" "(0.0.0.0:35700)" "0.0.0.0" "0.0.0.0" 8080 35700
      (by rfl) (by rfl),
    C9_theorem.2.1 ["only-one"] (by decide),
    C9_theorem.2.2.1 "notanendpoint" "(0.0.0.0:35700)"
      "new-das arguments must be a valid endpoint (eg. 0.0.0.0:8080)" (by rfl)⟩

/-! ## Local conjunctive query evaluation (`lib/src/space/grounding/mod.rs`)

`GroundingSpace::query` and `GroundingSpace::single_query` are embedded from
the source.  The atom model, the matcher of the atom index, `narrow_vars`,
`apply_bindings_to_atom_move`, `Bindings::merge` and `split_expr` live in
crates that are not part of the sources at hand and are modelled from the
specification, as their doc comments state. -/

namespace Grounding

/-- Modelled from the spec: the atom term tree (§3) — `Symbol(name)`,
`Variable(name)`, `Expression(ordered children)`.  `Grounded` atoms carry an
opaque value with a custom-match capability; they are outside this model. -/
inductive Atom where
  | Symbol (name : String)
  | Variable (name : String)
  | Expression (children : List Atom)

mutual

/-- Boolean structural equality of atoms (the spec's "equality is
structural"). -/
def atomBEq : Atom → Atom → Bool
  | Atom.Symbol a, Atom.Symbol b => a == b
  | Atom.Variable a, Atom.Variable b => a == b
  | Atom.Expression xs, Atom.Expression ys => atomListBEq xs ys
  | _, _ => false

/-- Pairwise structural equality of children lists. -/
def atomListBEq : List Atom → List Atom → Bool
  | [], [] => true
  | x :: xs, y :: ys => atomBEq x y && atomListBEq xs ys
  | _, _ => false

end

/-- Structural induction principle for the nested `Atom` type. -/
def atom_induction {P : Atom → Prop}
    (hs : ∀ s, P (Atom.Symbol s)) (hv : ∀ v, P (Atom.Variable v))
    (he : ∀ ns, (∀ a ∈ ns, P a) → P (Atom.Expression ns)) : ∀ a, P a :=
  fun a =>
    @Atom.rec P (fun ns => ∀ x ∈ ns, P x)
      hs hv (fun ns ih => he ns ih)
      (fun x hx => absurd hx (List.not_mem_nil x))
      (fun head tail ihh iht x hx => by
        rcases List.mem_cons.mp hx with h | h
        · exact h ▸ ihh
        · exact iht x h)
      a

theorem atomListBEq_iff : ∀ ns : List Atom,
    (∀ x ∈ ns, ∀ b, atomBEq x b = true ↔ x = b) →
    ∀ ms, atomListBEq ns ms = true ↔ ns = ms := by
  intro ns
  induction ns with
  | nil => intro _ ms; cases ms <;> simp [atomListBEq]
  | cons x xs ihl =>
    intro ih ms
    cases ms with
    | nil => simp [atomListBEq]
    | cons y ys =>
      simp only [atomListBEq, Bool.and_eq_true, List.cons.injEq]
      rw [ih x (List.mem_cons_self _ _) y,
        ihl (fun a ha b => ih a (List.mem_cons_of_mem _ ha) b) ys]

theorem atomBEq_iff (a : Atom) : ∀ b, atomBEq a b = true ↔ a = b := by
  refine atom_induction (P := fun a => ∀ b, atomBEq a b = true ↔ a = b) ?_ ?_ ?_ a
  · intro s b; cases b <;> simp [atomBEq]
  · intro v b; cases b <;> simp [atomBEq]
  · intro ns ih b
    cases b with
    | Symbol s => simp [atomBEq]
    | Variable v => simp [atomBEq]
    | Expression ms =>
      simp only [atomBEq, Atom.Expression.injEq]
      exact atomListBEq_iff ns ih ms

instance : DecidableEq Atom := fun a b => decidable_of_iff _ (atomBEq_iff a b)

/-- Modelled from the spec: `Bindings` — a mapping from variable name to
bound atom, keys unique within one instance. -/
abbrev Bindings := Finmap (fun _ : String => Atom)

mutual

/-- Modelled from the spec: variable collection over an atom, the
`query.iter().filter_type::<&VariableAtom>()` of `single_query`. -/
def varsOf : Atom → List String
  | Atom.Symbol _ => []
  | Atom.Variable v => [v]
  | Atom.Expression ns => varsOfList ns

/-- Variable collection over a children list. -/
def varsOfList : List Atom → List String
  | [] => []
  | a :: rest => varsOf a ++ varsOfList rest

end

mutual

/-- Modelled from the spec: `apply_bindings_to_atom_move` — "substitute `b`
into the conjunct (replacing bound variables with their bound values)". -/
def applyBindings (b : Bindings) : Atom → Atom
  | Atom.Symbol s => Atom.Symbol s
  | Atom.Variable v =>
    match b.lookup v with
    | some val => val
    | none => Atom.Variable v
  | Atom.Expression ns => Atom.Expression (applyBindingsList b ns)

/-- Substitution mapped over a children list. -/
def applyBindingsList (b : Bindings) : List Atom → List Atom
  | [] => []
  | a :: rest => applyBindings b a :: applyBindingsList b rest

end

mutual

/-- Modelled from the spec: one-sided structural matching of the atom index
(§4.1) — "symbols equal iff identical text; expressions unify iff same arity
and every child pairwise unifies; a `Variable` in the pattern unifies with
anything, binding itself to the counterpart; a second occurrence of the same
variable name within one pattern requires structural equality to its first
binding". -/
def matchAtom : Atom → Atom → Bindings → Option Bindings
  | Atom.Symbol s, Atom.Symbol s', b => if s = s' then some b else none
  | Atom.Variable v, d, b =>
    (match b.lookup v with
     | some d' => if d' = d then some b else none
     | none => some (b.insert v d))
  | Atom.Expression ps, Atom.Expression ds, b => matchList ps ds b
  | _, _, _ => none

/-- Pairwise matching of children, threading the bindings left to right. -/
def matchList : List Atom → List Atom → Bindings → Option Bindings
  | [], [], b => some b
  | p :: ps, d :: ds, b =>
    (match matchAtom p d b with
     | some b' => matchList ps ds b'
     | none => none)
  | _, _, _ => none

end

/-- Matching one stored atom against the query pattern, starting from empty
bindings — one step of `AtomIndex::query`. -/
def match1 (pattern data : Atom) : Option Bindings :=
  matchAtom pattern data ∅

/-- Modelled from the spec: `narrow_vars` — "narrow it to only the variables
that appear in the original query atom". -/
def narrowVars (b : Bindings) : List String → Bindings
  | [] => ∅
  | v :: vs =>
    match b.lookup v with
    | some a => (narrowVars b vs).insert v a
    | none => narrowVars b vs

mutual

/-- Modelled from the spec: structural compatibility ("recursively
unifiable") of two bound values, used by `Bindings::merge`. -/
def compatAtom : Atom → Atom → Bool
  | Atom.Variable _, _ => true
  | _, Atom.Variable _ => true
  | Atom.Symbol s, Atom.Symbol s' => s == s'
  | Atom.Expression xs, Atom.Expression ys => compatList xs ys
  | _, _ => false

/-- Pairwise compatibility of children lists. -/
def compatList : List Atom → List Atom → Bool
  | [], [] => true
  | x :: xs, y :: ys => compatAtom x y && compatList xs ys
  | _, _ => false

end

/-- Compatibility of the two values bound to one variable, `true` when the
variable is not bound on both sides. -/
def lookupCompat (next prev : Bindings) (v : String) : Bool :=
  match next.lookup v, prev.lookup v with
  | some a, some a' => compatAtom a a'
  | _, _ => true

/-- Modelled from the spec: `next.merge(&prev)` — "merge succeeds only if,
for every variable bound in both, the resolved values are structurally
compatible (recursively unifiable); merge failure contributes no result".
The merged map keeps `next`'s value on a shared key. -/
def mergeB (next prev : Bindings) : Option Bindings :=
  if ∀ v ∈ next.keys, lookupCompat next prev v = true then some (next ∪ prev)
  else none

/-- Modelled from the spec: `split_expr` plus the `COMMA_SYMBOL` guard of
`GroundingSpace::query` — an expression whose first child is the reserved
comma symbol splits into its conjunct list. -/
def splitComma : Atom → Option (List Atom)
  | Atom.Expression (Atom.Symbol s :: args) => if s = "," then some args else none
  | _ => none

/-- The `GroundingSpace::single_query`: for every stored atom in order, attempt
unification and narrow the resulting bindings to the query's variables. -/
def single_query (space : List Atom) (q : Atom) : List Bindings :=
  space.filterMap fun d => (match1 q d).map fun b => narrowVars b (varsOf q)

/-- The `acc.drain(0..).flat_map(|prev| ...)` of `GroundingSpace::query`:
substitute each accumulated `Bindings` into the conjunct, run the recursive
query `qf`, merge each result with the accumulated bindings and drop failed
merges.  `none` propagates a fuel exhaustion of `qf`. -/
def stepConj (qf : Atom → Option (List Bindings)) (c : Atom) :
    List Bindings → Option (List Bindings)
  | [] => some []
  | prev :: rest =>
    match qf (applyBindings prev c) with
    | none => none
    | some res =>
      match stepConj qf c rest with
      | none => none
      | some tail => some (res.filterMap (fun next => mergeB next prev) ++ tail)

/-- The `args.fold(BindingsSet::single(), ...)` of `GroundingSpace::query`:
an empty accumulator short-circuits the remaining conjuncts. -/
def conjFold (qf : Atom → Option (List Bindings)) :
    List Bindings → List Atom → Option (List Bindings)
  | acc, [] => some acc
  | acc, c :: cs =>
    if acc.isEmpty then conjFold qf acc cs
    else
      match stepConj qf c acc with
      | none => none
      | some acc' => conjFold qf acc' cs

/-- The `GroundingSpace::query`: a comma-headed expression folds its conjuncts
(recursively querying each substituted conjunct), everything else delegates
to `single_query`.  The fuel bounds the recursion depth of the nested
`self.query` calls, which the Rust source does not bound; `none` means the
fuel ran out. -/
def queryF : Nat → List Atom → Atom → Option (List Bindings)
  | 0, _, _ => none
  | fuel + 1, space, q =>
    match splitComma q with
    | some args => conjFold (queryF fuel space) [(∅ : Bindings)] args
    | none => some (single_query space q)

/-- The evaluation C3 describes, built from the claim's own words: fold the
conjuncts left to right from one empty `Bindings`, short-circuit an empty
accumulator, and issue a *single-atom query* (not a recursive one) for every
substituted conjunct, merging and dropping failures. -/
def claimStep (space : List Atom) (acc : List Bindings) (c : Atom) : List Bindings :=
  if acc.isEmpty then acc
  else acc.flatMap fun prev =>
    (single_query space (applyBindings prev c)).filterMap fun next => mergeB next prev

/-- The conjunction evaluation claimed by C3, as a left fold of `claimStep`. -/
def claimedConjQuery (space : List Atom) (args : List Atom) : List Bindings :=
  args.foldl (claimStep space) [(∅ : Bindings)]


mutual

/-- A variable-free ("ground") atom. -/
def groundAtom : Atom → Bool
  | Atom.Symbol _ => true
  | Atom.Variable _ => false
  | Atom.Expression ns => groundList ns

/-- A variable-free children list. -/
def groundList : List Atom → Bool
  | [] => true
  | a :: rest => groundAtom a && groundList rest

end

mutual

/-- No occurrence of the reserved comma symbol anywhere in the atom. -/
def commaFree : Atom → Bool
  | Atom.Symbol s => s ≠ ","
  | Atom.Variable _ => true
  | Atom.Expression ns => commaFreeList ns

/-- No comma symbol anywhere below a children list. -/
def commaFreeList : List Atom → Bool
  | [] => true
  | a :: rest => commaFree a && commaFreeList rest

end

/-- All values of a bindings map satisfy the predicate `Q`. -/
def valsP (Q : Atom → Bool) (b : Bindings) : Prop :=
  ∀ k a, b.lookup k = some a → Q a = true

/-- The `Q` holds on the children of every `Q`-expression. -/
def subClosed (Q : Atom → Bool) : Prop :=
  ∀ ns, Q (Atom.Expression ns) = true → ∀ a ∈ ns, Q a = true

theorem groundList_mem {ns : List Atom} (h : groundList ns = true) :
    ∀ a ∈ ns, groundAtom a = true := by
  induction ns with
  | nil => intro a ha; exact absurd ha (List.not_mem_nil a)
  | cons x xs ih =>
    simp only [groundList, Bool.and_eq_true] at h
    intro a ha
    rcases List.mem_cons.mp ha with rfl | ha
    · exact h.1
    · exact ih h.2 a ha

theorem commaFreeList_mem {ns : List Atom} (h : commaFreeList ns = true) :
    ∀ a ∈ ns, commaFree a = true := by
  induction ns with
  | nil => intro a ha; exact absurd ha (List.not_mem_nil a)
  | cons x xs ih =>
    simp only [commaFreeList, Bool.and_eq_true] at h
    intro a ha
    rcases List.mem_cons.mp ha with rfl | ha
    · exact h.1
    · exact ih h.2 a ha

theorem subClosed_ground : subClosed groundAtom := fun _ h => groundList_mem h

theorem subClosed_commaFree : subClosed commaFree := fun _ h => commaFreeList_mem h

theorem applyBindingsList_congr : ∀ (ns : List Atom),
    (∀ a ∈ ns, ∀ m1 m2 : Bindings,
      (∀ v ∈ varsOf a, m1.lookup v = m2.lookup v) →
      applyBindings m1 a = applyBindings m2 a) →
    ∀ m1 m2 : Bindings, (∀ v ∈ varsOfList ns, m1.lookup v = m2.lookup v) →
      applyBindingsList m1 ns = applyBindingsList m2 ns := by
  intro ns
  induction ns with
  | nil => intro _ m1 m2 _; rfl
  | cons x xs ih =>
    intro hp m1 m2 hv
    simp only [applyBindingsList, List.cons.injEq]
    constructor
    · exact hp x (List.mem_cons_self _ _) m1 m2 fun v hvx =>
        hv v (by simp [varsOfList, hvx])
    · exact ih (fun a ha => hp a (List.mem_cons_of_mem _ ha)) m1 m2 fun v hvx =>
        hv v (by simp [varsOfList, hvx])

/-- Substitution only inspects the bindings of the atom's own variables. -/
theorem applyBindings_congr : ∀ (a : Atom) (m1 m2 : Bindings),
    (∀ v ∈ varsOf a, m1.lookup v = m2.lookup v) →
    applyBindings m1 a = applyBindings m2 a := by
  refine atom_induction ?_ ?_ ?_
  · intro s m1 m2 _; rfl
  · intro v m1 m2 h
    have := h v (by simp [varsOf])
    simp only [applyBindings, this]
  · intro ns ih m1 m2 h
    simp only [applyBindings, Atom.Expression.injEq]
    exact applyBindingsList_congr ns ih m1 m2 (by simpa [varsOf] using h)

/-- Substituting the empty bindings changes nothing. -/
theorem applyBindings_empty : ∀ a : Atom, applyBindings ∅ a = a := by
  refine atom_induction ?_ ?_ ?_
  · intro s; rfl
  · intro v; simp [applyBindings, Finmap.lookup_empty]
  · intro ns ih
    simp only [applyBindings, Atom.Expression.injEq]
    induction ns with
    | nil => rfl
    | cons x xs ihl =>
      simp only [applyBindingsList, List.cons.injEq]
      exact ⟨ih x (List.mem_cons_self _ _),
        ihl fun a ha => ih a (List.mem_cons_of_mem _ ha)⟩

/-- A ground atom is untouched by substitution. -/
theorem applyBindings_ground : ∀ a : Atom, groundAtom a = true →
    ∀ b : Bindings, applyBindings b a = a := by
  refine atom_induction ?_ ?_ ?_
  · intro s _ b; rfl
  · intro v h; simp [groundAtom] at h
  · intro ns ih hg b
    simp only [applyBindings, Atom.Expression.injEq]
    have hmem := groundList_mem (by simpa [groundAtom] using hg)
    clear hg
    induction ns with
    | nil => rfl
    | cons x xs ihl =>
      simp only [applyBindingsList, List.cons.injEq]
      refine ⟨ih x (List.mem_cons_self _ _) (hmem x (List.mem_cons_self _ _)) b, ?_⟩
      exact ihl (fun a ha => ih a (List.mem_cons_of_mem _ ha))
        (fun a ha => hmem a (List.mem_cons_of_mem _ ha))

/-- A ground atom has no variables. -/
theorem varsOf_ground : ∀ a : Atom, groundAtom a = true → varsOf a = [] := by
  refine atom_induction ?_ ?_ ?_
  · intro s _; rfl
  · intro v h; simp [groundAtom] at h
  · intro ns ih hg
    have hmem := groundList_mem (by simpa [groundAtom] using hg)
    clear hg
    simp only [varsOf]
    induction ns with
    | nil => rfl
    | cons x xs ihl =>
      simp only [varsOfList, List.append_eq_nil]
      refine ⟨ih x (List.mem_cons_self _ _) (hmem x (List.mem_cons_self _ _)), ?_⟩
      exact ihl (fun a ha => ih a (List.mem_cons_of_mem _ ha))
        (fun a ha => hmem a (List.mem_cons_of_mem _ ha))

/-- Lookup in a narrowed bindings map. -/
theorem narrowVars_lookup (b : Bindings) : ∀ (vs : List String) (k : String),
    (narrowVars b vs).lookup k = if k ∈ vs then b.lookup k else none := by
  intro vs
  induction vs with
  | nil => intro k; simp [narrowVars, Finmap.lookup_empty]
  | cons v vs ih =>
    intro k
    simp only [narrowVars]
    by_cases hkv : k = v
    · subst hkv
      cases hb : b.lookup k with
      | none =>
        rw [ih k]
        by_cases hk : k ∈ vs <;> simp [hk, hb]
      | some a =>
        simp [Finmap.lookup_insert, hb]
    · cases hb : b.lookup v with
      | none =>
        rw [ih k]
        by_cases hk : k ∈ vs <;> simp [hk, hkv, List.mem_cons]
      | some a =>
        rw [Finmap.lookup_insert_of_ne _ hkv, ih k]
        by_cases hk : k ∈ vs <;> simp [hk, hkv, List.mem_cons]

/-- Narrowing to a variable list containing all keys is the identity. -/
theorem narrowVars_id (b : Bindings) (vs : List String)
    (h : ∀ k, k ∈ b → k ∈ vs) : narrowVars b vs = b := by
  apply Finmap.ext_lookup
  intro k
  rw [narrowVars_lookup]
  by_cases hk : k ∈ vs
  · simp [hk]
  · simp only [hk, if_false]
    have : k ∉ b := fun hmem => hk (h k hmem)
    exact (Finmap.lookup_eq_none.mpr this).symm

/-- Merging disjoint bindings always succeeds with the union. -/
theorem mergeB_disjoint (next prev : Bindings)
    (h : ∀ k, k ∈ next → k ∉ prev) : mergeB next prev = some (next ∪ prev) := by
  rw [mergeB, if_pos]
  intro v hv
  have hvn : v ∈ next := Finmap.mem_keys.mp hv
  have : prev.lookup v = none := Finmap.lookup_eq_none.mpr (h v hvn)
  unfold lookupCompat
  rw [this]
  cases next.lookup v <;> rfl

/-- Merging with the empty previous bindings returns the new bindings. -/
theorem mergeB_empty (next : Bindings) : mergeB next ∅ = some next := by
  have := mergeB_disjoint next ∅ (fun k _ => Finmap.not_mem_empty)
  rwa [Finmap.union_empty] at this

/-- A successful merge is the (left-biased) union. -/
theorem mergeB_eq_union {next prev m : Bindings} (h : mergeB next prev = some m) :
    m = next ∪ prev := by
  unfold mergeB at h
  split at h
  · exact (Option.some.injEq _ _ ▸ h).symm
  · simp at h

/-- Values of a merge come from one of the two sides. -/
theorem mergeB_vals {Q : Atom → Bool} {next prev m : Bindings}
    (hn : valsP Q next) (hp : valsP Q prev) (h : mergeB next prev = some m) :
    valsP Q m := by
  intro k a hk
  rw [mergeB_eq_union h] at hk
  by_cases hkn : k ∈ next
  · rw [Finmap.lookup_union_left hkn] at hk
    exact hn k a hk
  · rw [Finmap.lookup_union_right hkn] at hk
    exact hp k a hk

/-- Substitution with comma-free values preserves comma-freeness. -/
theorem applyBindings_commaFree : ∀ (a : Atom) (b : Bindings),
    commaFree a = true → valsP commaFree b →
    commaFree (applyBindings b a) = true := by
  refine atom_induction ?_ ?_ ?_
  · intro s b h _; exact h
  · intro v b _ hb
    simp only [applyBindings]
    cases hl : b.lookup v with
    | none => rfl
    | some a => exact hb v a hl
  · intro ns ih b h hb
    simp only [applyBindings, commaFree] at h ⊢
    induction ns with
    | nil => rfl
    | cons x xs ihl =>
      simp only [commaFreeList, Bool.and_eq_true] at h
      simp only [applyBindingsList, commaFreeList, Bool.and_eq_true]
      exact ⟨ih x (List.mem_cons_self _ _) b h.1 hb,
        ihl (fun a ha => ih a (List.mem_cons_of_mem _ ha)) h.2⟩

/-- A comma-free atom is not a comma-headed expression. -/
theorem splitComma_commaFree {a : Atom} (h : commaFree a = true) :
    splitComma a = none := by
  cases a with
  | Symbol s => rfl
  | Variable v => rfl
  | Expression ns =>
    cases ns with
    | nil => rfl
    | cons hd tl =>
      cases hd with
      | Symbol s =>
        simp only [commaFree, commaFreeList, Bool.and_eq_true] at h
        have hs : s ≠ "," := by simpa [commaFree] using h.1
        simp [splitComma, hs]
      | Variable v => rfl
      | Expression ms => rfl


/-- Soundness of pairwise child matching (pointwise hypotheses on the
children): old bindings survive, the key set grows by exactly the pattern's
variables, and substituting the final bindings into the patterns rebuilds the
data. -/
theorem matchList_sound : ∀ ps : List Atom,
    (∀ p ∈ ps, ∀ d b0 b, matchAtom p d b0 = some b →
      (∀ k, k ∈ b0 → b.lookup k = b0.lookup k) ∧
      (∀ k, k ∈ b ↔ (k ∈ b0 ∨ k ∈ varsOf p)) ∧
      applyBindings b p = d) →
    ∀ ds b0 b, matchList ps ds b0 = some b →
      (∀ k, k ∈ b0 → b.lookup k = b0.lookup k) ∧
      (∀ k, k ∈ b ↔ (k ∈ b0 ∨ k ∈ varsOfList ps)) ∧
      applyBindingsList b ps = ds := by
  intro ps
  induction ps with
  | nil =>
    intro _ ds b0 b h
    cases ds with
    | nil =>
      simp only [matchList, Option.some.injEq] at h
      subst h
      exact ⟨fun _ _ => rfl, by simp [varsOfList], rfl⟩
    | cons d ds => simp [matchList] at h
  | cons p ps ih =>
    intro hp ds b0 b h
    cases ds with
    | nil => simp [matchList] at h
    | cons d ds =>
      simp only [matchList] at h
      cases h1 : matchAtom p d b0 with
      | none => rw [h1] at h; exact absurd h (by simp)
      | some b1 =>
        rw [h1] at h
        obtain ⟨pres1, keys1, app1⟩ := hp p (List.mem_cons_self _ _) d b0 b1 h1
        obtain ⟨pres2, keys2, app2⟩ :=
          ih (fun a ha => hp a (List.mem_cons_of_mem _ ha)) ds b1 b h
        refine ⟨?_, ?_, ?_⟩
        · intro k hk
          rw [pres2 k ((keys1 k).mpr (Or.inl hk))]
          exact pres1 k hk
        · intro k
          rw [keys2 k, keys1 k]
          simp only [varsOfList, List.mem_append]
          tauto
        · simp only [applyBindingsList, List.cons.injEq]
          refine ⟨?_, app2⟩
          rw [← app1]
          apply applyBindings_congr
          intro v hv
          exact pres2 v ((keys1 v).mpr (Or.inr hv))

/-- Soundness of the one-sided matcher. -/
theorem matchAtom_sound : ∀ (p : Atom) (d : Atom) (b0 b : Bindings),
    matchAtom p d b0 = some b →
      (∀ k, k ∈ b0 → b.lookup k = b0.lookup k) ∧
      (∀ k, k ∈ b ↔ (k ∈ b0 ∨ k ∈ varsOf p)) ∧
      applyBindings b p = d := by
  refine atom_induction ?_ ?_ ?_
  · intro s d b0 b h
    cases d with
    | Symbol s' =>
      simp only [matchAtom] at h
      split at h
      · rename_i hs
        simp only [Option.some.injEq] at h
        subst h hs
        exact ⟨fun _ _ => rfl, by simp [varsOf], rfl⟩
      · simp at h
    | Variable v => simp [matchAtom] at h
    | Expression ns => simp [matchAtom] at h
  · intro v d b0 b h
    cases hl : b0.lookup v with
    | some d' =>
      simp only [matchAtom, hl] at h
      split at h
      · rename_i hd
        simp only [Option.some.injEq] at h
        subst h hd
        refine ⟨fun _ _ => rfl, ?_, ?_⟩
        · intro k
          simp only [varsOf, List.mem_singleton]
          constructor
          · exact Or.inl
          · rintro (hk | rfl)
            · exact hk
            · exact Finmap.mem_of_lookup_eq_some hl
        · simp [applyBindings, hl]
      · simp at h
    | none =>
      simp only [matchAtom, hl, Option.some.injEq] at h
      subst h
      have hvb0 : v ∉ b0 := Finmap.lookup_eq_none.mp hl
      refine ⟨?_, ?_, ?_⟩
      · intro k hk
        have : k ≠ v := fun hkv => hvb0 (hkv ▸ hk)
        exact Finmap.lookup_insert_of_ne _ this
      · intro k
        rw [Finmap.mem_insert]
        simp only [varsOf, List.mem_singleton]
        tauto
      · simp [applyBindings, Finmap.lookup_insert]
  · intro ns ih d b0 b h
    cases d with
    | Symbol s => simp [matchAtom] at h
    | Variable v => simp [matchAtom] at h
    | Expression ds =>
      simp only [matchAtom] at h
      obtain ⟨pres, keys, app⟩ := matchList_sound ns ih ds b0 b h
      exact ⟨pres, by simpa [varsOf] using keys, by simp [applyBindings, app]⟩

/-- Values recorded by pairwise child matching satisfy any subterm-closed
predicate holding on the data. -/
theorem matchList_vals (Q : Atom → Bool) : ∀ ps : List Atom,
    (∀ p ∈ ps, ∀ d b0 b, matchAtom p d b0 = some b →
      Q d = true → valsP Q b0 → valsP Q b) →
    ∀ ds b0 b, matchList ps ds b0 = some b →
      (∀ d ∈ ds, Q d = true) → valsP Q b0 → valsP Q b := by
  intro ps
  induction ps with
  | nil =>
    intro _ ds b0 b h hd hb0
    cases ds with
    | nil =>
      simp only [matchList, Option.some.injEq] at h
      subst h; exact hb0
    | cons d ds => simp [matchList] at h
  | cons p ps ih =>
    intro hp ds b0 b h hd hb0
    cases ds with
    | nil => simp [matchList] at h
    | cons d ds =>
      simp only [matchList] at h
      cases h1 : matchAtom p d b0 with
      | none => rw [h1] at h; exact absurd h (by simp)
      | some b1 =>
        rw [h1] at h
        have hb1 : valsP Q b1 :=
          hp p (List.mem_cons_self _ _) d b0 b1 h1 (hd d (List.mem_cons_self _ _)) hb0
        exact ih (fun a ha => hp a (List.mem_cons_of_mem _ ha)) ds b1 b h
          (fun d' hd' => hd d' (List.mem_cons_of_mem _ hd')) hb1

/-- Values recorded by the matcher satisfy any subterm-closed predicate
holding on the data atom. -/
theorem matchAtom_vals (Q : Atom → Bool) (hQ : subClosed Q) :
    ∀ (p d : Atom) (b0 b : Bindings), matchAtom p d b0 = some b →
      Q d = true → valsP Q b0 → valsP Q b := by
  refine atom_induction ?_ ?_ ?_
  · intro s d b0 b h hd hb0
    cases d with
    | Symbol s' =>
      simp only [matchAtom] at h
      split at h
      · simp only [Option.some.injEq] at h; subst h; exact hb0
      · simp at h
    | Variable v => simp [matchAtom] at h
    | Expression ns => simp [matchAtom] at h
  · intro v d b0 b h hd hb0
    cases hl : b0.lookup v with
    | some d' =>
      simp only [matchAtom, hl] at h
      split at h
      · simp only [Option.some.injEq] at h; subst h; exact hb0
      · simp at h
    | none =>
      simp only [matchAtom, hl, Option.some.injEq] at h
      subst h
      intro k a hk
      by_cases hkv : k = v
      · subst hkv
        rw [Finmap.lookup_insert] at hk
        cases hk
        exact hd
      · rw [Finmap.lookup_insert_of_ne _ hkv] at hk
        exact hb0 k a hk
  · intro ns ih d b0 b h hd hb0
    cases d with
    | Symbol s => simp [matchAtom] at h
    | Variable v => simp [matchAtom] at h
    | Expression ds =>
      simp only [matchAtom] at h
      exact matchList_vals Q ns ih ds b0 b h (hQ ds hd) hb0

/-- Completeness of pairwise child matching against substituted data. -/
theorem matchList_complete : ∀ ps : List Atom,
    (∀ p ∈ ps, ∀ (m : Bindings) (d : Atom) (b0 : Bindings),
      applyBindings m p = d → (∀ v ∈ varsOf p, v ∈ m) →
      (∀ k ∈ b0, b0.lookup k = m.lookup k) →
      ∃ b, matchAtom p d b0 = some b ∧ ∀ k ∈ b, b.lookup k = m.lookup k) →
    ∀ (m : Bindings) (b0 : Bindings),
      (∀ v ∈ varsOfList ps, v ∈ m) →
      (∀ k ∈ b0, b0.lookup k = m.lookup k) →
      ∃ b, matchList ps (applyBindingsList m ps) b0 = some b ∧
        ∀ k ∈ b, b.lookup k = m.lookup k := by
  intro ps
  induction ps with
  | nil =>
    intro _ m b0 _ hagree
    exact ⟨b0, rfl, hagree⟩
  | cons p ps ih =>
    intro hp m b0 hvars hagree
    obtain ⟨b1, hb1, hagree1⟩ :=
      hp p (List.mem_cons_self _ _) m (applyBindings m p) b0 rfl
        (fun v hv => hvars v (by simp [varsOfList, hv])) hagree
    obtain ⟨b, hb, hagreeb⟩ :=
      ih (fun a ha => hp a (List.mem_cons_of_mem _ ha)) m b1
        (fun v hv => hvars v (by simp [varsOfList, hv])) hagree1
    refine ⟨b, ?_, hagreeb⟩
    simp only [applyBindingsList, matchList, hb1, hb]

/-- Completeness of the one-sided matcher: if some bindings `m` covering the
pattern's variables turns the pattern into the data, matching succeeds and
agrees with `m` on every recorded key. -/
theorem matchAtom_complete : ∀ (p : Atom) (m : Bindings) (d : Atom) (b0 : Bindings),
    applyBindings m p = d → (∀ v ∈ varsOf p, v ∈ m) →
    (∀ k ∈ b0, b0.lookup k = m.lookup k) →
    ∃ b, matchAtom p d b0 = some b ∧ ∀ k ∈ b, b.lookup k = m.lookup k := by
  refine atom_induction ?_ ?_ ?_
  · intro s m d b0 happ _ hagree
    subst happ
    exact ⟨b0, by simp [matchAtom, applyBindings], hagree⟩
  · intro v m d b0 happ hvars hagree
    subst happ
    have hvm : v ∈ m := hvars v (by simp [varsOf])
    obtain ⟨val, hval⟩ := Finmap.mem_iff.mp hvm
    cases hl : b0.lookup v with
    | some d' =>
      have : d' = val := by
        have := hagree v (Finmap.mem_of_lookup_eq_some hl)
        rw [hl, hval] at this
        exact Option.some.inj this
      subst this
      refine ⟨b0, ?_, hagree⟩
      simp [matchAtom, applyBindings, hl, hval]
    | none =>
      refine ⟨b0.insert v val, ?_, ?_⟩
      · simp [matchAtom, applyBindings, hl, hval]
      · intro k hk
        rcases Finmap.mem_insert.mp hk with rfl | hk0
        · rw [Finmap.lookup_insert, hval]
        · have hkv : k ≠ v := by
            rintro rfl
            exact (Finmap.lookup_eq_none.mp hl) hk0
          rw [Finmap.lookup_insert_of_ne _ hkv]
          exact hagree k hk0
  · intro ns ih m d b0 happ hvars hagree
    subst happ
    obtain ⟨b, hb, hagreeb⟩ :=
      matchList_complete ns ih m b0 (by simpa [varsOf] using hvars) hagree
    exact ⟨b, by simp [matchAtom, applyBindings, hb], hagreeb⟩


/-- Variables of a substituted children list: the original variables minus
the bound ones (bound values being ground contribute no variables). -/
theorem varsOfList_apply : ∀ ns : List Atom,
    (∀ a ∈ ns, ∀ b : Bindings, valsP groundAtom b →
      ∀ v, v ∈ varsOf (applyBindings b a) ↔ (v ∈ varsOf a ∧ v ∉ b)) →
    ∀ b : Bindings, valsP groundAtom b →
      ∀ v, v ∈ varsOfList (applyBindingsList b ns) ↔ (v ∈ varsOfList ns ∧ v ∉ b) := by
  intro ns
  induction ns with
  | nil => intro _ b _ v; simp [applyBindingsList, varsOfList]
  | cons x xs ih =>
    intro hp b hb v
    simp only [applyBindingsList, varsOfList, List.mem_append]
    rw [hp x (List.mem_cons_self _ _) b hb v,
      ih (fun a ha => hp a (List.mem_cons_of_mem _ ha)) b hb v]
    tauto

/-- Variables of a substituted atom: the original variables minus the bound
ones. -/
theorem varsOf_apply : ∀ (a : Atom) (b : Bindings), valsP groundAtom b →
    ∀ v, v ∈ varsOf (applyBindings b a) ↔ (v ∈ varsOf a ∧ v ∉ b) := by
  refine atom_induction ?_ ?_ ?_
  · intro s b _ v; simp [applyBindings, varsOf]
  · intro w b hb v
    simp only [applyBindings]
    cases hl : b.lookup w with
    | some val =>
      rw [varsOf_ground val (hb w val hl)]
      simp only [List.not_mem_nil, varsOf, List.mem_singleton, false_iff, not_and]
      rintro rfl
      intro hvb
      exact absurd (Finmap.mem_of_lookup_eq_some hl) (fun _ => hvb (Finmap.mem_of_lookup_eq_some hl))
    | none =>
      simp only [varsOf, List.mem_singleton]
      constructor
      · rintro rfl
        exact ⟨rfl, Finmap.lookup_eq_none.mp hl⟩
      · exact fun h => h.1
  · intro ns ih b hb v
    simp only [applyBindings, varsOf]
    exact varsOfList_apply ns ih b hb v

/-- Composition of substitutions over a children list. -/
theorem applyBindingsList_comp : ∀ ns : List Atom,
    (∀ a ∈ ns, ∀ b1 b2 : Bindings, valsP groundAtom b1 →
      applyBindings b2 (applyBindings b1 a) = applyBindings (b1 ∪ b2) a) →
    ∀ b1 b2 : Bindings, valsP groundAtom b1 →
      applyBindingsList b2 (applyBindingsList b1 ns) = applyBindingsList (b1 ∪ b2) ns := by
  intro ns
  induction ns with
  | nil => intro _ b1 b2 _; rfl
  | cons x xs ih =>
    intro hp b1 b2 h1
    simp only [applyBindingsList, List.cons.injEq]
    exact ⟨hp x (List.mem_cons_self _ _) b1 b2 h1,
      ih (fun a ha => hp a (List.mem_cons_of_mem _ ha)) b1 b2 h1⟩

/-- Substituting `b1` (ground values) and then `b2` equals substituting the
left-biased union once. -/
theorem applyBindings_comp : ∀ (a : Atom) (b1 b2 : Bindings), valsP groundAtom b1 →
    applyBindings b2 (applyBindings b1 a) = applyBindings (b1 ∪ b2) a := by
  refine atom_induction ?_ ?_ ?_
  · intro s b1 b2 _; rfl
  · intro v b1 b2 h1
    simp only [applyBindings]
    cases hl : b1.lookup v with
    | some val =>
      have hmem : v ∈ b1 := Finmap.mem_of_lookup_eq_some hl
      rw [Finmap.lookup_union_left hmem, hl]
      exact applyBindings_ground val (h1 v val hl) b2
    | none =>
      have hmem : v ∉ b1 := Finmap.lookup_eq_none.mp hl
      rw [Finmap.lookup_union_right hmem]
      simp only [applyBindings]
  · intro ns ih b1 b2 h1
    simp only [applyBindings, Atom.Expression.injEq]
    exact applyBindingsList_comp ns ih b1 b2 h1

/-- The `stepConj` is monotone in the recursive query function. -/
theorem stepConj_mono {qf qf' : Atom → Option (List Bindings)}
    (hq : ∀ a r, qf a = some r → qf' a = some r) (c : Atom) :
    ∀ acc out, stepConj qf c acc = some out → stepConj qf' c acc = some out := by
  intro acc
  induction acc with
  | nil => intro out h; exact h
  | cons prev rest ih =>
    intro out h
    simp only [stepConj] at h ⊢
    cases h1 : qf (applyBindings prev c) with
    | none => rw [h1] at h; exact absurd h (by simp)
    | some res =>
      rw [h1] at h
      rw [hq _ _ h1]
      cases h2 : stepConj qf c rest with
      | none => rw [h2] at h; exact absurd h (by simp)
      | some tail =>
        rw [h2] at h
        rw [ih _ h2]
        exact h

/-- The `conjFold` is monotone in the recursive query function. -/
theorem conjFold_mono {qf qf' : Atom → Option (List Bindings)}
    (hq : ∀ a r, qf a = some r → qf' a = some r) :
    ∀ (args : List Atom) (acc out : List Bindings),
      conjFold qf acc args = some out → conjFold qf' acc args = some out := by
  intro args
  induction args with
  | nil => intro acc out h; exact h
  | cons c cs ih =>
    intro acc out h
    simp only [conjFold] at h ⊢
    by_cases hacc : acc.isEmpty
    · rw [if_pos hacc] at h ⊢
      exact ih acc out h
    · rw [if_neg hacc] at h ⊢
      cases h1 : stepConj qf c acc with
      | none => rw [h1] at h; exact absurd h (by simp)
      | some acc' =>
        rw [h1] at h
        rw [stepConj_mono hq c acc acc' h1]
        exact ih acc' out h

/-- More fuel never changes a result that was already produced. -/
theorem queryF_mono : ∀ (n : Nat) (S : List Atom) (q : Atom) (r : List Bindings),
    queryF n S q = some r → queryF (n + 1) S q = some r := by
  intro n
  induction n with
  | zero => intro S q r h; simp [queryF] at h
  | succ n ih =>
    intro S q r h
    cases hs : splitComma q with
    | none =>
      have e1 : queryF (n + 1) S q = some (single_query S q) := by simp [queryF, hs]
      have e2 : queryF (n + 1 + 1) S q = some (single_query S q) := by simp [queryF, hs]
      rw [e1] at h
      rw [e2]
      exact h
    | some args =>
      have e1 : queryF (n + 1) S q = conjFold (queryF n S) [(∅ : Bindings)] args := by
        simp [queryF, hs]
      have e2 : queryF (n + 1 + 1) S q = conjFold (queryF (n + 1) S) [(∅ : Bindings)] args := by
        simp [queryF, hs]
      rw [e1] at h
      rw [e2]
      exact conjFold_mono (fun a r' h' => ih S a r' h') args _ r h

theorem queryF_le {n m : Nat} (hnm : n ≤ m) :
    ∀ (S : List Atom) (q : Atom) (r : List Bindings),
      queryF n S q = some r → queryF m S q = some r := by
  induction hnm with
  | refl => intro S q r h; exact h
  | step _ ih =>
    intro S q r h
    exact queryF_mono _ S q r (ih S q r h)

/-- Fuel determinism: two successful runs agree. -/
theorem queryF_det {n m : Nat} {S : List Atom} {q : Atom} {r r' : List Bindings}
    (h1 : queryF n S q = some r) (h2 : queryF m S q = some r') : r = r' := by
  rcases Nat.le_total n m with hle | hle
  · have := queryF_le hle S q r h1
    rw [this] at h2
    exact Option.some.inj h2
  · have := queryF_le hle S q r' h2
    rw [this] at h1
    exact (Option.some.inj h1).symm

/-- The key set of a first match is exactly the pattern's variable set. -/
theorem match1_keys {q d : Atom} {b : Bindings} (h : match1 q d = some b) :
    ∀ k, k ∈ b ↔ k ∈ varsOf q := by
  intro k
  have := (matchAtom_sound q d ∅ b h).2.1 k
  simpa [Finmap.not_mem_empty] using this

/-- Empty bindings satisfy any value predicate. -/
theorem valsP_empty (Q : Atom → Bool) : valsP Q (∅ : Bindings) := by
  intro k a hk
  rw [Finmap.lookup_empty] at hk
  cases hk

/-- The `single_query` in match-list form: narrowing is the identity because the
matcher binds exactly the query's variables. -/
theorem single_query_eq (S : List Atom) (q : Atom) :
    single_query S q = S.flatMap fun d => (match1 q d).toList := by
  induction S with
  | nil => rfl
  | cons d S ih =>
    rw [single_query, List.filterMap_cons, List.flatMap_cons, ← single_query, ih]
    cases h : match1 q d with
    | none => simp
    | some b =>
      have hid : narrowVars b (varsOf q) = b :=
        narrowVars_id b (varsOf q) (fun k hk => (match1_keys h k).mp hk)
      simp [hid]

/-- The `claimStep` without the redundant empty test. -/
theorem claimStep_eq (S : List Atom) (acc : List Bindings) (c : Atom) :
    claimStep S acc c = acc.flatMap fun prev =>
      (single_query S (applyBindings prev c)).filterMap fun next => mergeB next prev := by
  cases acc with
  | nil => rfl
  | cons prev rest => rfl

theorem filterMap_eq_flatMap_toList (l : List (Bindings)) (f : Bindings → Option Bindings) :
    l.filterMap f = l.flatMap fun x => (f x).toList := by
  induction l with
  | nil => rfl
  | cons x xs ih =>
    rw [List.filterMap_cons, List.flatMap_cons, ← ih]
    cases f x <;> simp

theorem toList_flatMap_comm {α β γ : Type _} (o : Option α) (l : List β) (g : α → β → List γ) :
    (o.toList.flatMap fun b => l.flatMap (g b)) = l.flatMap fun d => o.toList.flatMap fun b => g b d := by
  cases o with
  | none =>
    simp only [Option.toList_none, List.flatMap_nil]
    induction l with
    | nil => rfl
    | cons x xs ih => rw [List.flatMap_cons, ← ih]; rfl
  | some a => simp [Option.toList_some]

theorem flatMap_congr {α β : Type _} {l : List α} {f g : α → List β}
    (h : ∀ a ∈ l, f a = g a) : l.flatMap f = l.flatMap g := by
  induction l with
  | nil => rfl
  | cons x xs ih =>
    rw [List.flatMap_cons, List.flatMap_cons, h x (List.mem_cons_self _ _),
      ih fun a ha => h a (List.mem_cons_of_mem _ ha)]


/-- Specialized soundness: substituting a first match's bindings into the
pattern rebuilds the data atom. -/
theorem match1_sound {q d : Atom} {b : Bindings} (h : match1 q d = some b) :
    applyBindings b q = d :=
  (matchAtom_sound q d ∅ b h).2.2

/-- Specialized value groundness for a first match on ground data. -/
theorem match1_vals_ground {q d : Atom} {b : Bindings} (hg : groundAtom d = true)
    (h : match1 q d = some b) : valsP groundAtom b :=
  matchAtom_vals groundAtom subClosed_ground q d ∅ b h hg (valsP_empty _)

/-- The contribution of one pair of stored atoms to the two-conjunct
evaluation: match the first conjunct on `d1`, the substituted second conjunct
on `d2`, and merge. -/
def pairKernel (p1 p2 d1 d2 : Atom) : List Bindings :=
  (match1 p1 d1).toList.flatMap fun b1 =>
    (match1 (applyBindings b1 p2) d2).toList.flatMap fun b2 =>
      (mergeB b2 b1).toList

theorem mem_pairKernel {p1 p2 d1 d2 : Atom} {m : Bindings} :
    m ∈ pairKernel p1 p2 d1 d2 ↔
      ∃ b1 b2, match1 p1 d1 = some b1 ∧
        match1 (applyBindings b1 p2) d2 = some b2 ∧ mergeB b2 b1 = some m := by
  simp only [pairKernel, List.mem_flatMap, Option.mem_toList, Option.mem_def]
  constructor
  · rintro ⟨b1, h1, b2, h2, h3⟩
    exact ⟨b1, b2, h1, h2, h3⟩
  · rintro ⟨b1, b2, h1, h2, h3⟩
    exact ⟨b1, h1, b2, h2, h3⟩

/-- Characterization of the two-conjunct kernel on ground data: it produces
exactly the bindings over the two variable sets that rebuild both data atoms,
with ground values. -/
theorem pairKernel_char {p1 p2 d1 d2 : Atom} (hd1 : groundAtom d1 = true)
    (hd2 : groundAtom d2 = true) (m : Bindings) :
    m ∈ pairKernel p1 p2 d1 d2 ↔
      ((∀ k, k ∈ m ↔ (k ∈ varsOf p1 ∨ k ∈ varsOf p2)) ∧
        applyBindings m p1 = d1 ∧ applyBindings m p2 = d2 ∧ valsP groundAtom m) := by
  rw [mem_pairKernel]
  constructor
  · rintro ⟨b1, b2, h1, h2, h3⟩
    have keys1 := match1_keys h1
    have app1 := match1_sound h1
    have V1 := match1_vals_ground hd1 h1
    have keys2 := match1_keys h2
    have app2 := match1_sound h2
    have V2 := match1_vals_ground hd2 h2
    have hq2vars := varsOf_apply p2 b1 V1
    have hdisj : ∀ k, k ∈ b2 → k ∉ b1 := fun k hk => ((hq2vars k).mp ((keys2 k).mp hk)).2
    have hvals := mergeB_vals V2 V1 h3
    have hm := mergeB_eq_union h3
    subst hm
    refine ⟨?_, ?_, ?_, hvals⟩
    · intro k
      rw [Finmap.mem_union]
      constructor
      · rintro (hk | hk)
        · exact Or.inr ((hq2vars k).mp ((keys2 k).mp hk)).1
        · exact Or.inl ((keys1 k).mp hk)
      · rintro (hk | hk)
        · exact Or.inr ((keys1 k).mpr hk)
        · by_cases hkb1 : k ∈ b1
          · exact Or.inr hkb1
          · exact Or.inl ((keys2 k).mpr ((hq2vars k).mpr ⟨hk, hkb1⟩))
    · rw [← app1]
      apply applyBindings_congr
      intro v hv
      have hvb1 : v ∈ b1 := (keys1 v).mpr hv
      have hvb2 : v ∉ b2 := fun hc => (hdisj v hc) hvb1
      exact Finmap.lookup_union_right hvb2
    · have hcomp := applyBindings_comp p2 b1 b2 V1
      rw [hcomp] at app2
      have hcomm : b2 ∪ b1 = b1 ∪ b2 :=
        Finmap.union_comm_of_disjoint fun x hx => hdisj x hx
      rw [hcomm]
      exact app2
  · rintro ⟨hkeys, happ1, happ2, _⟩
    obtain ⟨b1, h1, hagree1⟩ := matchAtom_complete p1 m d1 ∅ happ1
      (fun v hv => (hkeys v).mpr (Or.inl hv))
      (fun k hk => absurd hk Finmap.not_mem_empty)
    have keys1 := match1_keys h1
    have V1 := match1_vals_ground hd1 h1
    have hsub : b1 ∪ m = m := by
      apply Finmap.ext_lookup
      intro k
      by_cases hk : k ∈ b1
      · rw [Finmap.lookup_union_left hk]
        exact hagree1 k hk
      · rw [Finmap.lookup_union_right hk]
    have happq2 : applyBindings m (applyBindings b1 p2) = d2 := by
      rw [applyBindings_comp p2 b1 m V1, hsub]
      exact happ2
    have hq2vars := varsOf_apply p2 b1 V1
    obtain ⟨b2, h2, hagree2⟩ := matchAtom_complete (applyBindings b1 p2) m d2 ∅ happq2
      (fun v hv => (hkeys v).mpr (Or.inr ((hq2vars v).mp hv).1))
      (fun k hk => absurd hk Finmap.not_mem_empty)
    have keys2 := match1_keys h2
    have hdisj : ∀ k, k ∈ b2 → k ∉ b1 := fun k hk => ((hq2vars k).mp ((keys2 k).mp hk)).2
    have hmerge := mergeB_disjoint b2 b1 hdisj
    refine ⟨b1, b2, h1, h2, ?_⟩
    rw [hmerge]
    congr 1
    apply Finmap.ext_lookup
    intro k
    by_cases hk2 : k ∈ b2
    · rw [Finmap.lookup_union_left hk2]
      exact hagree2 k hk2
    · rw [Finmap.lookup_union_right hk2]
      by_cases hk1 : k ∈ b1
      · exact hagree1 k hk1
      · rw [Finmap.lookup_eq_none.mpr hk1]
        symm
        rw [Finmap.lookup_eq_none]
        intro hkm
        rcases (hkeys k).mp hkm with hv1 | hv2
        · exact hk1 ((keys1 k).mpr hv1)
        · exact hk2 ((keys2 k).mpr ((hq2vars k).mpr ⟨hv2, hk1⟩))

theorem pairKernel_shape (p1 p2 d1 d2 : Atom) :
    pairKernel p1 p2 d1 d2 = [] ∨ ∃ m, pairKernel p1 p2 d1 d2 = [m] := by
  unfold pairKernel
  cases h1 : match1 p1 d1 with
  | none => exact Or.inl rfl
  | some b1 =>
    cases h2 : match1 (applyBindings b1 p2) d2 with
    | none => exact Or.inl (by simp [h2])
    | some b2 =>
      cases h3 : mergeB b2 b1 with
      | none => exact Or.inl (by simp [h2, h3])
      | some m => exact Or.inr ⟨m, by simp [h2, h3]⟩

/-- Transposition of the kernel on ground data: matching `(p1, d1)` then the
substituted `p2` on `d2` yields the same (zero- or one-element) contribution
as the swapped order. -/
theorem pairKernel_swap {p1 p2 d1 d2 : Atom} (hd1 : groundAtom d1 = true)
    (hd2 : groundAtom d2 = true) :
    pairKernel p1 p2 d1 d2 = pairKernel p2 p1 d2 d1 := by
  have hiff : ∀ m, m ∈ pairKernel p1 p2 d1 d2 ↔ m ∈ pairKernel p2 p1 d2 d1 := by
    intro m
    rw [pairKernel_char hd1 hd2 m, pairKernel_char hd2 hd1 m]
    constructor
    · rintro ⟨hk, h1, h2, hv⟩
      exact ⟨fun k => by rw [hk k]; tauto, h2, h1, hv⟩
    · rintro ⟨hk, h1, h2, hv⟩
      exact ⟨fun k => by rw [hk k]; tauto, h2, h1, hv⟩
  rcases pairKernel_shape p1 p2 d1 d2 with hA | ⟨m, hA⟩ <;>
    rcases pairKernel_shape p2 p1 d2 d1 with hB | ⟨m', hB⟩
  · rw [hA, hB]
  · exfalso
    have hmem : m' ∈ pairKernel p2 p1 d2 d1 := by rw [hB]; simp
    have := (hiff m').mpr hmem
    rw [hA] at this
    exact absurd this (List.not_mem_nil m')
  · exfalso
    have hmem : m ∈ pairKernel p1 p2 d1 d2 := by rw [hA]; simp
    have := (hiff m).mp hmem
    rw [hB] at this
    exact absurd this (List.not_mem_nil m)
  · have hmem : m ∈ pairKernel p2 p1 d2 d1 := (hiff m).mp (by rw [hA]; simp)
    rw [hB] at hmem
    have : m = m' := by simpa using hmem
    rw [hA, hB, this]

/-- The claimed two-conjunct evaluation as a double store traversal of the
kernel. -/
theorem claimedConjQuery_two (S : List Atom) (p1 p2 : Atom) :
    claimedConjQuery S [p1, p2] =
      S.flatMap fun d1 => S.flatMap fun d2 => pairKernel p1 p2 d1 d2 := by
  have hfold : claimedConjQuery S [p1, p2] =
      claimStep S (claimStep S [(∅ : Bindings)] p1) p2 := rfl
  rw [hfold]
  have hstep1 : claimStep S [(∅ : Bindings)] p1 =
      S.flatMap fun d1 => (match1 p1 d1).toList := by
    rw [claimStep_eq]
    have hone : ([(∅ : Bindings)].flatMap fun prev =>
        (single_query S (applyBindings prev p1)).filterMap fun next => mergeB next prev) =
        (single_query S (applyBindings (∅ : Bindings) p1)).filterMap fun next =>
          mergeB next (∅ : Bindings) := by
      simp
    rw [hone, applyBindings_empty]
    have hmap : (fun next => mergeB next (∅ : Bindings)) = some :=
      funext fun next => mergeB_empty next
    rw [hmap, List.filterMap_some, single_query_eq]
  rw [hstep1, claimStep_eq, List.flatMap_assoc]
  apply flatMap_congr
  intro d1 _
  have hinner : ∀ prev : Bindings,
      ((single_query S (applyBindings prev p2)).filterMap fun next => mergeB next prev) =
        S.flatMap fun d2 => (match1 (applyBindings prev p2) d2).toList.flatMap fun b2 =>
          (mergeB b2 prev).toList := by
    intro prev
    rw [single_query_eq, filterMap_eq_flatMap_toList, List.flatMap_assoc]
  rw [show (fun prev => (single_query S (applyBindings prev p2)).filterMap fun next =>
      mergeB next prev) = fun prev => S.flatMap fun d2 =>
        (match1 (applyBindings prev p2) d2).toList.flatMap fun b2 => (mergeB b2 prev).toList
    from funext hinner]
  rw [toList_flatMap_comm]
  rfl

theorem flatMap_swap_perm {α β : Type _} (l1 l2 : List α) (f : α → α → List β) :
    (l1.flatMap fun a => l2.flatMap fun b => f a b).Perm
      (l2.flatMap fun b => l1.flatMap fun a => f a b) := by
  rw [← Multiset.coe_eq_coe]
  have h1 : ((l1.flatMap fun a => l2.flatMap fun b => f a b : List β) : Multiset β) =
      (↑l1 : Multiset α).bind fun a => (↑l2 : Multiset α).bind fun b =>
        (↑(f a b) : Multiset β) := by
    simp only [← Multiset.coe_bind]
  have h2 : ((l2.flatMap fun b => l1.flatMap fun a => f a b : List β) : Multiset β) =
      (↑l2 : Multiset α).bind fun b => (↑l1 : Multiset α).bind fun a =>
        (↑(f a b) : Multiset β) := by
    simp only [← Multiset.coe_bind]
  rw [h1, h2]
  exact Multiset.bind_bind (↑l1 : Multiset α) (↑l2 : Multiset α)

/-- Swapping the two conjuncts of the claimed evaluation over a ground store
permutes the result list. -/
theorem claimedConjQuery_swap (S : List Atom) (p1 p2 : Atom)
    (hS : ∀ d ∈ S, groundAtom d = true) :
    (claimedConjQuery S [p1, p2]).Perm (claimedConjQuery S [p2, p1]) := by
  rw [claimedConjQuery_two, claimedConjQuery_two]
  have hcong : (S.flatMap fun d1 => S.flatMap fun d2 => pairKernel p1 p2 d1 d2) =
      S.flatMap fun d1 => S.flatMap fun d2 => pairKernel p2 p1 d2 d1 := by
    apply flatMap_congr
    intro d1 hd1
    apply flatMap_congr
    intro d2 hd2
    exact pairKernel_swap (hS d1 hd1) (hS d2 hd2)
  rw [hcong]
  exact flatMap_swap_perm S S fun d1 d2 => pairKernel p2 p1 d2 d1


/-- Narrowing preserves any value predicate. -/
theorem narrowVars_valsP {Q : Atom → Bool} {b : Bindings} (h : valsP Q b)
    (vs : List String) : valsP Q (narrowVars b vs) := by
  intro k a hk
  rw [narrowVars_lookup] at hk
  split at hk
  · exact h k a hk
  · cases hk

/-- Results of a single-atom query over a comma-free store carry only
comma-free values. -/
theorem single_query_valsCF {S : List Atom} (hS : ∀ d ∈ S, commaFree d = true)
    (q : Atom) : ∀ b ∈ single_query S q, valsP commaFree b := by
  intro b hb
  rw [single_query] at hb
  obtain ⟨d, hd, hbd⟩ := List.mem_filterMap.mp hb
  cases h1 : match1 q d with
  | none => rw [h1] at hbd; cases hbd
  | some b' =>
    rw [h1] at hbd
    simp only [Option.map_some', Option.some.injEq] at hbd
    subst hbd
    exact narrowVars_valsP
      (matchAtom_vals commaFree subClosed_commaFree q d ∅ b' h1 (hS d hd) (valsP_empty _)) _

/-- When the store and the conjunct are comma-free and the accumulated
bindings hold comma-free values, one conjunct step of the fueled query equals
the claimed single-atom-query step. -/
theorem stepConj_eq_claim {n : Nat} {S : List Atom}
    {c : Atom} (hc : commaFree c = true) :
    ∀ acc : List Bindings, (∀ b ∈ acc, valsP commaFree b) →
      stepConj (queryF (n + 1) S) c acc =
        some (acc.flatMap fun prev =>
          (single_query S (applyBindings prev c)).filterMap fun next => mergeB next prev) := by
  intro acc
  induction acc with
  | nil => intro _; rfl
  | cons prev rest ih =>
    intro hvals
    have hprev := hvals prev (List.mem_cons_self _ _)
    have happ : commaFree (applyBindings prev c) = true :=
      applyBindings_commaFree c prev hc hprev
    have hsplit : splitComma (applyBindings prev c) = none := splitComma_commaFree happ
    have hq : queryF (n + 1) S (applyBindings prev c) =
        some (single_query S (applyBindings prev c)) := by
      simp [queryF, hsplit]
    simp only [stepConj, hq, ih (fun b hb => hvals b (List.mem_cons_of_mem _ hb)),
      List.flatMap_cons]

/-- Elements produced by a claimed conjunct step keep comma-free values. -/
theorem claimStep_valsCF {S : List Atom} (hS : ∀ d ∈ S, commaFree d = true)
    {c : Atom} {acc : List Bindings} (hacc : ∀ b ∈ acc, valsP commaFree b) :
    ∀ b ∈ claimStep S acc c, valsP commaFree b := by
  intro b hb
  rw [claimStep_eq] at hb
  obtain ⟨prev, hprev, hb2⟩ := List.mem_flatMap.mp hb
  obtain ⟨next, hnext, hmerge⟩ := List.mem_filterMap.mp hb2
  exact mergeB_vals (single_query_valsCF hS _ next hnext) (hacc prev hprev) hmerge

/-- The conjunct fold of the fueled query equals the claimed fold, given
comma-free store, conjuncts and accumulated values. -/
theorem conjFold_eq_claim {n : Nat} {S : List Atom} (hS : ∀ d ∈ S, commaFree d = true) :
    ∀ (args : List Atom) (acc : List Bindings), (∀ c ∈ args, commaFree c = true) →
      (∀ b ∈ acc, valsP commaFree b) →
      conjFold (queryF (n + 1) S) acc args = some (args.foldl (claimStep S) acc) := by
  intro args
  induction args with
  | nil => intro acc _ _; rfl
  | cons c cs ih =>
    intro acc hargs hacc
    by_cases hemp : acc.isEmpty
    · have hnil : acc = [] := List.isEmpty_iff.mp hemp
      subst hnil
      simp only [conjFold, if_pos (by rfl : ([] : List Bindings).isEmpty = true)]
      have : claimStep S [] c = [] := rfl
      rw [List.foldl_cons, this]
      exact ih [] (fun a ha => hargs a (List.mem_cons_of_mem _ ha)) (by intro b hb; cases hb)
    · simp only [conjFold, if_neg hemp,
        stepConj_eq_claim (hargs c (List.mem_cons_self _ _)) acc hacc]
      rw [List.foldl_cons]
      have hstep : claimStep S acc c = acc.flatMap fun prev =>
          (single_query S (applyBindings prev c)).filterMap fun next => mergeB next prev :=
        claimStep_eq S acc c
      rw [← hstep]
      exact ih (claimStep S acc c) (fun a ha => hargs a (List.mem_cons_of_mem _ ha))
        (claimStep_valsCF hS hacc)

/-- Over a comma-free store with comma-free conjuncts, the embedded
`GroundingSpace::query` computes exactly the claimed fold of single-atom
queries (two units of fuel suffice: one for the conjunction, one for each
non-comma substituted conjunct). -/
theorem queryF_comma_eq_claimed (n : Nat) (S : List Atom) (args : List Atom)
    (hS : ∀ d ∈ S, commaFree d = true) (hargs : ∀ c ∈ args, commaFree c = true) :
    queryF (n + 2) S (Atom.Expression (Atom.Symbol "," :: args)) =
      some (claimedConjQuery S args) := by
  have hsplit : splitComma (Atom.Expression (Atom.Symbol "," :: args)) = some args := by
    simp [splitComma]
  have e : queryF (n + 2) S (Atom.Expression (Atom.Symbol "," :: args)) =
      conjFold (queryF (n + 1) S) [(∅ : Bindings)] args := by
    simp [queryF, hsplit]
  rw [e, claimedConjQuery]
  exact conjFold_eq_claim hS args [(∅ : Bindings)] hargs
    (by
      intro b hb
      rw [List.mem_singleton] at hb
      subst hb
      exact valsP_empty _)


end Grounding

/-! ## Claims about the conjunctive query evaluation -/

/-- C3 (counterexample): with the single stored atom `(, A B)` and the query
`(, (, A B))` the code evaluates the conjunct `(, A B)` *recursively* (as a
conjunction, which fails because `A` is not in the store), while the claimed
fold issues a *single-atom query* for it (which matches the stored atom); the
two evaluations disagree. -/
theorem C3_counterexample :
    Grounding.queryF 3
        [Grounding.Atom.Expression [Grounding.Atom.Symbol ",", Grounding.Atom.Symbol "A",
          Grounding.Atom.Symbol "B"]]
        (Grounding.Atom.Expression [Grounding.Atom.Symbol ",",
          Grounding.Atom.Expression [Grounding.Atom.Symbol ",", Grounding.Atom.Symbol "A",
            Grounding.Atom.Symbol "B"]]) = some [] ∧
    Grounding.claimedConjQuery
        [Grounding.Atom.Expression [Grounding.Atom.Symbol ",", Grounding.Atom.Symbol "A",
          Grounding.Atom.Symbol "B"]]
        [Grounding.Atom.Expression [Grounding.Atom.Symbol ",", Grounding.Atom.Symbol "A",
          Grounding.Atom.Symbol "B"]] = [(∅ : Grounding.Bindings)] ∧
    ([] : List Grounding.Bindings) ≠ [(∅ : Grounding.Bindings)] :=
  ⟨rfl, rfl, by decide⟩

/-- C3 (amended): `query` folds the conjuncts of a comma query left to right
from one empty `Bindings`, short-circuiting an empty accumulator, substituting
each accumulated `Bindings` into the conjunct and evaluating it by a
*recursive* query; when no comma symbol occurs in the store or in the
conjuncts the recursive query is exactly the single-atom query, so the fold
coincides with the claimed one. -/
theorem C3_theorem (n : Nat) (S args : List Grounding.Atom)
    (hS : ∀ d ∈ S, Grounding.commaFree d = true)
    (hargs : ∀ c ∈ args, Grounding.commaFree c = true) :
    Grounding.queryF (n + 2) S
        (Grounding.Atom.Expression (Grounding.Atom.Symbol "," :: args)) =
      some (Grounding.claimedConjQuery S args) :=
  Grounding.queryF_comma_eq_claimed n S args hS hargs

set_option maxHeartbeats 2000000 in
/-- C3 (witness): the amended fold equality at a one-atom store and a
one-conjunct query. -/
theorem C3_witness :
    Grounding.queryF 2
        [Grounding.Atom.Expression [Grounding.Atom.Symbol "P", Grounding.Atom.Symbol "a"]]
        (Grounding.Atom.Expression [Grounding.Atom.Symbol ",",
          Grounding.Atom.Expression [Grounding.Atom.Symbol "P", Grounding.Atom.Variable "x"]]) =
      some (Grounding.claimedConjQuery
        [Grounding.Atom.Expression [Grounding.Atom.Symbol "P", Grounding.Atom.Symbol "a"]]
        [Grounding.Atom.Expression [Grounding.Atom.Symbol "P", Grounding.Atom.Variable "x"]]) :=
  C3_theorem 0
    [Grounding.Atom.Expression [Grounding.Atom.Symbol "P", Grounding.Atom.Symbol "a"]]
    [Grounding.Atom.Expression [Grounding.Atom.Symbol "P", Grounding.Atom.Variable "x"]]
    (by decide) (by decide)

set_option maxHeartbeats 4000000 in
/-- C5 (counterexample): with the store `[(P $z), (Q c)]` — whose first atom
contains a variable — the conjunction `(, (P $x) (Q $x))` yields one solution
while the swapped `(, (Q $x) (P $x))` yields none: conjunct order changes the
result set. -/
theorem C5_counterexample :
    Grounding.queryF 3
        [Grounding.Atom.Expression [Grounding.Atom.Symbol "P", Grounding.Atom.Variable "z"],
          Grounding.Atom.Expression [Grounding.Atom.Symbol "Q", Grounding.Atom.Symbol "c"]]
        (Grounding.Atom.Expression [Grounding.Atom.Symbol ",",
          Grounding.Atom.Expression [Grounding.Atom.Symbol "P", Grounding.Atom.Variable "x"],
          Grounding.Atom.Expression [Grounding.Atom.Symbol "Q", Grounding.Atom.Variable "x"]]) =
      some [((∅ : Grounding.Bindings).insert "x"
        (Grounding.Atom.Variable "z")).insert "z" (Grounding.Atom.Symbol "c")] ∧
    Grounding.queryF 3
        [Grounding.Atom.Expression [Grounding.Atom.Symbol "P", Grounding.Atom.Variable "z"],
          Grounding.Atom.Expression [Grounding.Atom.Symbol "Q", Grounding.Atom.Symbol "c"]]
        (Grounding.Atom.Expression [Grounding.Atom.Symbol ",",
          Grounding.Atom.Expression [Grounding.Atom.Symbol "Q", Grounding.Atom.Variable "x"],
          Grounding.Atom.Expression [Grounding.Atom.Symbol "P", Grounding.Atom.Variable "x"]]) =
      some [] ∧
    ¬ List.Perm
      [((∅ : Grounding.Bindings).insert "x"
        (Grounding.Atom.Variable "z")).insert "z" (Grounding.Atom.Symbol "c")]
      ([] : List Grounding.Bindings) :=
  ⟨by decide, by rfl, fun h => by simpa using h.length_eq⟩

/-- C5 (amended): over a store of variable-free atoms in which no comma
symbol occurs, and for comma-free conjuncts `p1, p2`, swapping the two
conjuncts of a conjunction query yields the same `BindingsSet` up to the
order of its elements. -/
theorem C5_theorem (S : List Grounding.Atom) (p1 p2 : Grounding.Atom) (n m : Nat)
    (r12 r21 : List Grounding.Bindings)
    (hS : ∀ d ∈ S, Grounding.commaFree d = true)
    (hgr : ∀ d ∈ S, Grounding.groundAtom d = true)
    (hp1 : Grounding.commaFree p1 = true) (hp2 : Grounding.commaFree p2 = true)
    (h12 : Grounding.queryF n S
      (Grounding.Atom.Expression [Grounding.Atom.Symbol ",", p1, p2]) = some r12)
    (h21 : Grounding.queryF m S
      (Grounding.Atom.Expression [Grounding.Atom.Symbol ",", p2, p1]) = some r21) :
    r12.Perm r21 := by
  have hargs12 : ∀ c ∈ [p1, p2], Grounding.commaFree c = true := by
    intro c hc
    rcases List.mem_cons.mp hc with rfl | hc
    · exact hp1
    · rcases List.mem_cons.mp hc with rfl | hc
      · exact hp2
      · cases hc
  have hargs21 : ∀ c ∈ [p2, p1], Grounding.commaFree c = true := by
    intro c hc
    rcases List.mem_cons.mp hc with rfl | hc
    · exact hp2
    · rcases List.mem_cons.mp hc with rfl | hc
      · exact hp1
      · cases hc
  have e12 := Grounding.queryF_comma_eq_claimed n S [p1, p2] hS hargs12
  have e21 := Grounding.queryF_comma_eq_claimed m S [p2, p1] hS hargs21
  have h1 : r12 = Grounding.claimedConjQuery S [p1, p2] := Grounding.queryF_det h12 e12
  have h2 : r21 = Grounding.claimedConjQuery S [p2, p1] := Grounding.queryF_det h21 e21
  rw [h1, h2]
  exact Grounding.claimedConjQuery_swap S p1 p2 hgr

set_option maxHeartbeats 4000000 in
/-- C5 (witness): the commutation theorem at the ground, comma-free store
`[(P a), (Q a), (Q b)]` with conjuncts `(P $x)` and `(Q $x)`. -/
theorem C5_witness :
    List.Perm [((∅ : Grounding.Bindings).insert "x" (Grounding.Atom.Symbol "a"))]
      [((∅ : Grounding.Bindings).insert "x" (Grounding.Atom.Symbol "a"))] :=
  C5_theorem
    [Grounding.Atom.Expression [Grounding.Atom.Symbol "P", Grounding.Atom.Symbol "a"],
      Grounding.Atom.Expression [Grounding.Atom.Symbol "Q", Grounding.Atom.Symbol "a"],
      Grounding.Atom.Expression [Grounding.Atom.Symbol "Q", Grounding.Atom.Symbol "b"]]
    (Grounding.Atom.Expression [Grounding.Atom.Symbol "P", Grounding.Atom.Variable "x"])
    (Grounding.Atom.Expression [Grounding.Atom.Symbol "Q", Grounding.Atom.Variable "x"])
    2 2
    [((∅ : Grounding.Bindings).insert "x" (Grounding.Atom.Symbol "a"))]
    [((∅ : Grounding.Bindings).insert "x" (Grounding.Atom.Symbol "a"))]
    (by decide) (by decide) (by decide) (by decide) (by decide) (by decide)
